import Mathlib

/-
Verification of the provider-extraction core of scripts/validate_terraform.py.

The Python source is shallowly embedded: JSON documents become the inductive
type Json; Python dictionaries are association lists in document order; a
Python exception that a surrounding handler catches is the value none of an
Option-typed result.  Character classes of the regular expressions used by the
script are modelled over ASCII, matching the provider names and plan documents
the script handles.  Non-string values reaching str-only operations
(normalize_provider_name, str.split) raise in Python and are modelled as none.
-/

/-! Basic helpers over lists of characters. -/

/-- Boolean membership in a list, by decidable equality. -/
def bmem {α : Type} [DecidableEq α] (a : α) : List α → Bool
  | [] => false
  | b :: l => if b = a then true else bmem a l

/-- The segment of `l` before the first occurrence of `c`; this is
Python `s.split(c)[0]` (also when `c` does not occur). -/
def takeUntil (c : Char) : List Char → List Char
  | [] => []
  | d :: rest => if d = c then [] else d :: takeUntil c rest

/-- The segment of `l` after the first occurrence of `c` (empty when `c` does
not occur); together with `takeUntil` this is Python `s.split(c, 1)`. -/
def dropAfter (c : Char) : List Char → List Char
  | [] => []
  | d :: rest => if d = c then rest else dropAfter c rest

/-- Does the literal `pat` occur at the very start of `t`? -/
def litAt : List Char → List Char → Bool
  | [], _ => true
  | _ :: _, [] => false
  | p :: ps, t :: ts => if p = t then litAt ps ts else false

/-- Drop the literal `pat` from the start of `t`, or fail. -/
def dropLit : List Char → List Char → Option (List Char)
  | [], t => some t
  | _ :: _, [] => none
  | p :: ps, t :: ts => if p = t then dropLit ps ts else none

/-- Substring test: Python `pat in s`. -/
def subIn (pat : List Char) : List Char → Bool
  | [] => litAt pat []
  | t :: ts => if litAt pat (t :: ts) then true else subIn pat ts

/-- Python `s.split(c)` (full split, keeping empty segments). -/
def splitChar (c : Char) : List Char → List (List Char)
  | [] => [[]]
  | a :: rest =>
    if a = c then [] :: splitChar c rest
    else
      match splitChar c rest with
      | [] => [[a]]
      | h :: t => (a :: h) :: t

/-- ASCII model of Python `str.islower()`: at least one cased character and no
uppercase character. -/
def pyIsLowerChars (l : List Char) : Bool :=
  l.any Char.isAlpha && !(l.any Char.isUpper)

/-- The character `\x7b` (opening curly brace). -/
def lbrace : Char := Char.ofNat 123

/-- The character `\x7d` (closing curly brace). -/
def rbrace : Char := Char.ofNat 125

/-- The single-quote character. -/
def squote : Char := Char.ofNat 39

/-- The double-quote character. -/
def dquote : Char := Char.ofNat 34

/-- ASCII model of the regex class `\s`. -/
def isSpacePy (c : Char) : Bool :=
  c = ' ' || c = Char.ofNat 9 || c = Char.ofNat 10 || c = Char.ofNat 13 ||
  c = Char.ofNat 11 || c = Char.ofNat 12

/-- ASCII model of the regex class `\w`. -/
def isWordPy (c : Char) : Bool := c.isAlphanum || c = '_'

/-! The provider data model. -/

/-- A provider reference, the namespace and name pair built by the script
(dictionaries with keys "namespace" and "name" in the source). -/
structure ProviderRef where
  ns : String
  name : String
  deriving DecidableEq, Repr

/-- The deduplication key the script builds for a provider,
`f"{namespace}/{name}"`. -/
def refKey (p : ProviderRef) : String := p.ns ++ "/" ++ p.name

/-! normalize_provider_name (validate_terraform.py lines 274-293). -/

/-- Core of normalize_provider_name over character lists.  `takeUntil` is
Python `split(sep)[0]`, which also covers the source guard
`if '.' in name else name` (when the dot is absent the split head is the whole
string). -/
def normalizeChars (l : List Char) : List Char :=
  if bmem '_' (takeUntil '.' l) then
    if 2 ≤ (takeUntil '_' (takeUntil '.' l)).length &&
        (takeUntil '_' (takeUntil '.' l)).length ≤ 10 &&
        pyIsLowerChars (takeUntil '_' (takeUntil '.' l)) then
      takeUntil '_' (takeUntil '.' l)
    else takeUntil '.' l
  else takeUntil '.' l

/-- normalize_provider_name: strip an alias suffix after the first dot, and if
the rest contains an underscore and its first underscore segment is lowercase
of length 2 to 10, keep only that segment. -/
def normalize_provider_name (name : String) : String :=
  String.mk (normalizeChars name.data)

/-! A model of parsed JSON documents.  Python dictionaries preserve insertion
order, so objects are association lists in document order; comparisons use
structural equality. -/

inductive Json where
  | null
  | bool (b : Bool)
  | num (n : Int)
  | str (s : String)
  | arr (xs : List Json)
  | obj (fields : List (String × Json))
  deriving Repr

/-- Structural equality on Json values. -/
def Json.beq : Json → Json → Bool
  | .null, .null => true
  | .bool a, .bool b => a = b
  | .num a, .num b => a = b
  | .str a, .str b => a = b
  | .arr xs, .arr ys => beqList xs ys
  | .obj xs, .obj ys => beqFields xs ys
  | _, _ => false
where
  beqList : List Json → List Json → Bool
    | [], [] => true
    | x :: xs, y :: ys => Json.beq x y && beqList xs ys
    | _, _ => false
  beqFields : List (String × Json) → List (String × Json) → Bool
    | [], [] => true
    | (k, x) :: xs, (k2, y) :: ys => k = k2 && Json.beq x y && beqFields xs ys
    | _, _ => false

/-- Python truthiness of a JSON value. -/
def jTruthy : Json → Bool
  | .null => false
  | .bool b => b
  | .num n => n != 0
  | .str s => !s.data.isEmpty
  | .arr xs => !xs.isEmpty
  | .obj fs => !fs.isEmpty

/-- Key lookup in an object field list (parsed JSON objects have unique keys). -/
def jLookup (k : String) : List (String × Json) → Option Json
  | [] => none
  | (k2, v) :: rest => if k2 = k then some v else jLookup k rest

/-- Python `d.get(k, default)`: none models the AttributeError raised when the
receiver is not a dictionary. -/
def pyDictGet (j : Json) (k : String) (default : Json) : Option Json :=
  match j with
  | Json.obj fs => some ((jLookup k fs).getD default)
  | _ => none

/-- Python iteration `for x in j`: lists yield elements, strings yield
one-character strings, dictionaries yield their keys; none models the
TypeError raised for non-iterables. -/
def pyIter : Json → Option (List Json)
  | Json.arr xs => some xs
  | Json.str s => some (s.data.map (fun c => Json.str (String.mk [c])))
  | Json.obj fs => some (fs.map (fun kv => Json.str kv.1))
  | _ => none

/-- Python membership `k in j` for a string `k`: substring test on strings,
element equality on lists, key membership on dictionaries; none models the
TypeError raised otherwise. -/
def pyMemStr (k : String) (j : Json) : Option Bool :=
  match j with
  | Json.obj fs => some (bmem k (fs.map Prod.fst))
  | Json.arr xs => some (xs.any (fun x => Json.beq x (Json.str k)))
  | Json.str s => some (subIn k.data s.data)
  | _ => none

/-- Python `s.split(c, 1)` when `c` occurs in `s`. -/
def pySplit1 (s : String) (c : Char) : String × String :=
  (String.mk (takeUntil c s.data), String.mk (dropAfter c s.data))

/-! File-based scanner (extract_providers_from_terraform_files, lines
296-355).  A directory is modelled as none (absent) or the list of the
contents of its .tf files in the order the directory enumeration yields
them. -/

/-- Match of the regex `^([a-z][a-z0-9]*)_` used for resource-type strings
(lines 377 and 395): the maximal leading run of lowercase letters and digits,
starting with a letter, that is followed by an underscore. -/
def leadingToken (s : String) : Option String :=
  match s.data with
  | [] => none
  | c :: rest =>
    if c.isLower then
      match rest.dropWhile (fun d => d.isLower || d.isDigit) with
      | d :: _ =>
        if d = '_' then some (String.mk (c :: rest.takeWhile (fun d => d.isLower || d.isDigit)))
        else none
      | [] => none
    else none

/-- Attempted match of `required_providers\s*\x7b([^\x7d]+)\x7d` at the start
of `l`, returning the captured block. -/
def matchRequiredAt (l : List Char) : Option (List Char) :=
  match dropLit "required_providers".data l with
  | none => none
  | some r1 =>
    match r1.dropWhile isSpacePy with
    | [] => none
    | b :: r3 =>
      if b = lbrace then
        let block := r3.takeWhile (fun d => d ≠ rbrace)
        match r3.dropWhile (fun d => d ≠ rbrace) with
        | e :: _ => if block.isEmpty then none else if e = rbrace then some block else none
        | [] => none
      else none

/-- re.search for the required_providers block: the leftmost position at which
`matchRequiredAt` succeeds. -/
def searchRequired : List Char → Option (List Char)
  | [] => none
  | c :: rest =>
    match matchRequiredAt (c :: rest) with
    | some b => some b
    | none => searchRequired rest

/-- Attempted match of `source\s*=\s*["\x27]([^"\x27]+)["\x27]` at the start
of `l`, returning the capture and the remainder after the match. -/
def matchSourceTailAt (l : List Char) : Option (String × List Char) :=
  match dropLit "source".data l with
  | none => none
  | some r1 =>
    match r1.dropWhile isSpacePy with
    | [] => none
    | e :: r3 =>
      if e = '=' then
        match r3.dropWhile isSpacePy with
        | [] => none
        | q :: r5 =>
          if q = dquote || q = squote then
            let cap := r5.takeWhile (fun d => d ≠ dquote && d ≠ squote)
            match r5.dropWhile (fun d => d ≠ dquote && d ≠ squote) with
            | q2 :: r7 =>
              if cap.isEmpty then none
              else if q2 = dquote || q2 = squote then some (String.mk cap, r7)
              else none
            | [] => none
          else none
      else none

/-- Greedy `[^\x7d]*` before the source literal: try the farthest start
position first, then backtrack towards the current position. -/
def trySourceFrom (l : List Char) : Nat → Option (String × List Char)
  | 0 => matchSourceTailAt l
  | p + 1 =>
    match matchSourceTailAt (l.drop (p + 1)) with
    | some r => some r
    | none => trySourceFrom l p

/-- Attempted match of the provider pattern
`(\w+)\s*=\s*\x7b[^\x7d]*source\s*=\s*["\x27]([^"\x27]+)["\x27]` at the start
of `l`, returning both captures and the remainder after the match. -/
def matchProviderAt (l : List Char) : Option ((String × String) × List Char) :=
  let w := l.takeWhile isWordPy
  if w.isEmpty then none
  else
    match (l.dropWhile isWordPy).dropWhile isSpacePy with
    | [] => none
    | e :: r3 =>
      if e = '=' then
        match r3.dropWhile isSpacePy with
        | [] => none
        | b :: r5 =>
          if b = lbrace then
            match trySourceFrom r5 (r5.takeWhile (fun d => d ≠ rbrace)).length with
            | some (cap, rest) => some ((String.mk w, cap), rest)
            | none => none
          else none
      else none

/-- findall of the provider pattern: repeated leftmost matches, scanning on
from the end of each match.  The fuel argument bounds the number of scan
steps; every step either advances one character or consumes a nonempty match,
so `l.length` steps always suffice. -/
def findallAux : Nat → List Char → List (String × String)
  | 0, _ => []
  | _ + 1, [] => []
  | fuel + 1, c :: rest =>
    match matchProviderAt (c :: rest) with
    | some (pr, after) => pr :: findallAux fuel after
    | none => findallAux fuel rest

/-- findall of the provider pattern over a block. -/
def findallProviders (l : List Char) : List (String × String) :=
  findallAux l.length l

/-- Loop over the matches of one file (lines 331-347): first occurrence per
block key wins, the source splits on `/` into namespace and name exactly when
it has two segments, otherwise the namespace defaults to hashicorp and the
name is the block key. -/
def scanPairsLoop : List (String × String) → List (String × ProviderRef) → List (String × ProviderRef)
  | [], acc => acc
  | (pname, source) :: rest, acc =>
    if bmem pname (acc.map Prod.fst) then scanPairsLoop rest acc
    else
      let ref :=
        match splitChar '/' source.data with
        | [a, b] => ProviderRef.mk (String.mk a) (String.mk b)
        | _ => ProviderRef.mk "hashicorp" pname
      scanPairsLoop rest (acc ++ [(pname, ref)])

/-- Loop over the .tf files (lines 313-349): a file contributes only when it
contains the substring required_providers and the block regex matches. -/
def scanFilesLoop : List String → List (String × ProviderRef) → List (String × ProviderRef)
  | [], acc => acc
  | content :: rest, acc =>
    scanFilesLoop rest
      (if subIn "required_providers".data content.data then
        match searchRequired content.data with
        | some block => scanPairsLoop (findallProviders block) acc
        | none => acc
      else acc)

/-- extract_providers_from_terraform_files: an absent directory yields the
empty list, otherwise the provider_sources values in insertion order. -/
def extract_providers_from_terraform_files (dir : Option (List String)) : List ProviderRef :=
  match dir with
  | none => []
  | some files => (scanFilesLoop files []).map Prod.snd

/-! Plan reading and validation.  A plan file is modelled as
none (the file does not exist), some none (it exists but reading or JSON
parsing fails), or some (some doc) for the parsed document. -/

/-- validate_plan_structure (lines 413-428).  The source condition
`not plan or plan == \x7b\x7d` reduces to falsiness, because the empty
dictionary is falsy.  Reading the configuration key raises when the document
is not a dictionary, which the caller of validate_plan_structure catches. -/
def validate_plan_structure (plan : Json) : Option (Bool × Option String) :=
  if !jTruthy plan then
    some (false, some "Plan JSON is empty. This usually means terraform plan failed (e.g. missing AWS credentials).")
  else
    match pyMemStr "format_version" plan with
    | none => none
    | some hasFv =>
      if !hasFv then
        match pyMemStr "terraform_version" plan with
        | none => none
        | some hasTv =>
          if !hasTv then
            some (false, some "Plan JSON appears malformed - missing format_version and terraform_version")
          else
            match pyDictGet plan "configuration" (Json.obj []) with
            | none => none
            | some _ => some (true, none)
      else
        match pyDictGet plan "configuration" (Json.obj []) with
        | none => none
        | some _ => some (true, none)

/-- The first component of a validation result. -/
def optFst (r : Option (Bool × Option String)) : Option Bool :=
  match r with
  | none => none
  | some (b, _) => some b

/-! Plan-based extraction (extract_providers_from_plan, lines 431-545). -/

/-- The elif branch of the provider-config loop (lines 479-480): when the
entry is a dictionary carrying a name field, that value is normalized and
used as the name; otherwise the normalized key stands. -/
def nameFieldRef (fs : List (String × Json)) (base : String) : Option ProviderRef :=
  match jLookup "name" fs with
  | none => some (ProviderRef.mk "hashicorp" base)
  | some (Json.str s) => some (ProviderRef.mk "hashicorp" (normalize_provider_name s))
  | some _ => none

/-- Body of the provider-config loop (lines 461-480): the provider reference
extracted from one provider_configs entry. -/
def providerRefOfConfigEntry (provider_key : String) (provider_data : Json) : Option ProviderRef :=
  let base := normalize_provider_name provider_key
  match provider_data with
  | Json.obj fs =>
    let full_name := (jLookup "full_provider_name" fs).getD (Json.str "")
    if jTruthy full_name then
      match pyMemStr "/" full_name with
      | none => none
      | some true =>
        match full_name with
        | Json.str s =>
          some (ProviderRef.mk (pySplit1 s '/').1 (normalize_provider_name (pySplit1 s '/').2))
        | _ => none
      | some false => nameFieldRef fs base
    else nameFieldRef fs base
  | _ => some (ProviderRef.mk "hashicorp" base)

/-- The provider-config loop (lines 461-489): append each extracted reference
whose namespace/name key is new.  The providers set of the source always
equals the key image of the accumulated list, so only the list is carried. -/
def method1Loop : List (String × Json) → List ProviderRef → Option (List ProviderRef)
  | [], acc => some acc
  | (k, v) :: rest, acc =>
    match providerRefOfConfigEntry k v with
    | none => none
    | some ref =>
      method1Loop rest (if bmem (refKey ref) (acc.map refKey) then acc else acc ++ [ref])

/-- Method 1 (lines 455-489): providers from configuration.provider_configs,
skipped entirely when provider_configs is falsy. -/
def method1List (plan : Json) : Option (List ProviderRef) :=
  (pyDictGet plan "configuration" (Json.obj [])).bind fun config =>
  (pyDictGet config "provider_configs" (Json.obj [])).bind fun pc =>
  if jTruthy pc then
    match pc with
    | Json.obj fs => method1Loop fs []
    | _ => none
  else some []

/-- Loop over resource_changes (lines 372-387): the matched type prefix is
normalized and appended when its name is new. -/
def rtLoop1 : List Json → List ProviderRef → Option (List ProviderRef)
  | [], acc => some acc
  | ch :: rest, acc =>
    match pyDictGet ch "type" (Json.str "") with
    | none => none
    | some t =>
      if jTruthy t then
        match t with
        | Json.str s =>
          match leadingToken s with
          | some tok =>
            let pn := normalize_provider_name tok
            rtLoop1 rest
              (if bmem pn (acc.map ProviderRef.name) then acc
               else acc ++ [ProviderRef.mk "hashicorp" pn])
          | none => rtLoop1 rest acc
        | _ => none
      else rtLoop1 rest acc

/-- Loop over planned_values.root_module.resources (lines 390-404): as
rtLoop1 but the matched prefix is used without normalization. -/
def rtLoop2 : List Json → List ProviderRef → Option (List ProviderRef)
  | [], acc => some acc
  | ch :: rest, acc =>
    match pyDictGet ch "type" (Json.str "") with
    | none => none
    | some t =>
      if jTruthy t then
        match t with
        | Json.str s =>
          match leadingToken s with
          | some tok =>
            rtLoop2 rest
              (if bmem tok (acc.map ProviderRef.name) then acc
               else acc ++ [ProviderRef.mk "hashicorp" tok])
          | none => rtLoop2 rest acc
        | _ => none
      else rtLoop2 rest acc

/-- extract_providers_from_resource_types (lines 358-410). -/
def extract_providers_from_resource_types (plan : Json) : Option (List ProviderRef) :=
  (pyDictGet plan "resource_changes" (Json.arr [])).bind fun rcs =>
  (pyDictGet plan "planned_values" (Json.obj [])).bind fun pv =>
  (pyDictGet pv "root_module" (Json.obj [])).bind fun rm =>
  (pyIter rcs).bind fun changes =>
  (rtLoop1 changes []).bind fun l1 =>
  (pyDictGet rm "resources" (Json.arr [])).bind fun rl =>
  (pyIter rl).bind fun ress =>
  rtLoop2 ress l1

/-- The merge loops of methods 2 and 3 (lines 496-501 and 507-511): append
each new provider whose namespace/name key is absent. -/
def mergeLoop : List ProviderRef → List ProviderRef → List ProviderRef
  | [], acc => acc
  | p :: rest, acc =>
    mergeLoop rest (if bmem (refKey p) (acc.map refKey) then acc else acc ++ [p])

/-- The key of the final deduplication pass,
`f"{namespace}/{normalized name}"`. -/
def normKey (p : ProviderRef) : String := p.ns ++ "/" ++ normalize_provider_name p.name

/-- The final deduplication and normalization pass (lines 513-526): an ordered
dictionary keyed by namespace/normalized-name. -/
def finalLoop : List ProviderRef → List (String × ProviderRef) → List (String × ProviderRef)
  | [], acc => acc
  | p :: rest, acc =>
    finalLoop rest
      (if bmem (normKey p) (acc.map Prod.fst) then acc
       else acc ++ [(normKey p, ProviderRef.mk p.ns (normalize_provider_name p.name))])

/-- The value list of the final pass. -/
def finalNormalize (l : List ProviderRef) : List ProviderRef :=
  (finalLoop l []).map Prod.snd

/-- The try body of extract_providers_from_plan on a parsed document (lines
447-534); none models an exception reaching the generic handler. -/
def extractBody (plan : Json) (dir : Option (List String)) : Option (List ProviderRef) :=
  match validate_plan_structure plan with
  | none => none
  | some (false, _) => some (extract_providers_from_terraform_files dir)
  | some (true, _) =>
    (method1List plan).bind fun m1 =>
    (extract_providers_from_resource_types plan).bind fun rp =>
    let m12 := mergeLoop rp m1
    let m123 :=
      if m12.isEmpty then mergeLoop (extract_providers_from_terraform_files dir) m12
      else m12
    some (finalNormalize m123)

/-- extract_providers_from_plan (lines 431-545): a missing file, a JSON parse
failure, and every exception reaching one of the handlers all fall back to the
file-based scanner. -/
def extract_providers_from_plan (planFile : Option (Option Json)) (dir : Option (List String)) :
    List ProviderRef :=
  match planFile with
  | none => extract_providers_from_terraform_files dir
  | some none => extract_providers_from_terraform_files dir
  | some (some plan) => (extractBody plan dir).getD (extract_providers_from_terraform_files dir)

/-! Plan resource analysis (analyze_plan_resources, lines 548-596). -/

/-- One entry of the resources list: the type, name and verbatim actions value
of a resource change. -/
structure ResourceRecord where
  type : Json
  name : Json
  actions : Json
  deriving Repr

/-- The summary dictionary returned by analyze_plan_resources. -/
structure PlanSummary where
  actions : List (String × Nat)
  resources : List ResourceRecord
  total_resources : Nat
  resource_types : List Json
  deriving Repr

/-- The zeroed summary of the exception handler (lines 591-596). -/
def failSummary : PlanSummary :=
  { actions := [], resources := [], total_resources := 0, resource_types := [] }

/-- The initial action counters (lines 556-561). -/
def initActions : List (String × Nat) :=
  [("create", 0), ("update", 0), ("delete", 0), ("replace", 0)]

/-- Increment the counter of `s` when present (`actions[action] += 1` guarded
by `action in actions`). -/
def bumpCount (cs : List (String × Nat)) (s : String) : List (String × Nat) :=
  cs.map (fun kv => if kv.1 = s then (kv.1, kv.2 + 1) else kv)

/-- The inner action loop (lines 568-570): strings bump their counter when it
exists; other hashable values are simply not keys; unhashable values (lists,
dictionaries) raise on the membership test. -/
def countActions : List Json → List (String × Nat) → Option (List (String × Nat))
  | [], cs => some cs
  | a :: rest, cs =>
    match a with
    | Json.arr _ => none
    | Json.obj _ => none
    | Json.str s => countActions rest (bumpCount cs s)
    | _ => countActions rest cs

/-- Is the value a JSON string? -/
def isStrJson : Json → Bool
  | Json.str _ => true
  | _ => false

/-- Is the value a JSON number? -/
def isNumJson : Json → Bool
  | Json.num _ => true
  | _ => false

/-- Is the value a JSON boolean? -/
def isBoolJson : Json → Bool
  | Json.bool _ => true
  | _ => false

/-- The string carried by a JSON string value, if any. -/
def strOfJson : Json → Option String
  | Json.str s => some s
  | _ => none

/-- Can the value be a member of a Python set (hashable)? -/
def jHashable : Json → Bool
  | Json.arr _ => false
  | Json.obj _ => false
  | _ => true

/-- Insert into a sorted list of strings. -/
def insertStr (s : String) : List String → List String
  | [] => [s]
  | t :: rest => if s ≤ t then s :: t :: rest else t :: insertStr s rest

/-- Insertion sort on strings (Python sorted on code points). -/
def sortStrs : List String → List String
  | [] => []
  | s :: rest => insertStr s (sortStrs rest)

/-- The integer sort key of a numeric-or-boolean JSON value (Python booleans
are integers: False is 0 and True is 1). -/
def jNumKey : Json → Int
  | Json.num n => n
  | Json.bool b => if b then 1 else 0
  | _ => 0

/-- Stable insertion into a list sorted by the numeric key. -/
def insertNumJson (x : Json) : List Json → List Json
  | [] => [x]
  | y :: rest => if jNumKey x ≤ jNumKey y then x :: y :: rest else y :: insertNumJson x rest

/-- Stable insertion sort by the numeric key (equal keys keep input order, as
Python sorted is stable). -/
def sortNumsJson : List Json → List Json
  | [] => []
  | x :: rest => insertNumJson x (sortNumsJson rest)

/-- Python `sorted` over the members of the type set: lists of zero or one
element never compare; all-string lists sort by code points; lists of numbers
and booleans sort by numeric value (booleans are integers in Python); any
other combination raises TypeError in Python 3. -/
def pySortedJson (xs : List Json) : Option (List Json) :=
  match xs with
  | [] => some []
  | [x] => some [x]
  | _ =>
    if xs.all isStrJson then
      some ((sortStrs (xs.filterMap
        (fun j => match j with | Json.str s => some s | _ => none))).map Json.str)
    else if xs.all (fun j => isNumJson j || isBoolJson j) then
      some (sortNumsJson xs)
    else none

/-- The loop over resource changes (lines 566-580), carrying the action
counters, the resources list and the insertion-ordered type set. -/
def analyzeLoop :
    List Json → List (String × Nat) → List ResourceRecord → List Json →
    Option (List (String × Nat) × List ResourceRecord × List Json)
  | [], counts, recs, types => some (counts, recs, types)
  | ch :: rest, counts, recs, types =>
    match pyDictGet ch "change" (Json.obj []) with
    | none => none
    | some chg =>
      match pyDictGet chg "actions" (Json.arr []) with
      | none => none
      | some al =>
        match pyIter al with
        | none => none
        | some items =>
          match countActions items counts with
          | none => none
          | some counts2 =>
            match pyDictGet ch "type" (Json.str "unknown") with
            | none => none
            | some t =>
              match pyDictGet ch "name" (Json.str "unknown") with
              | none => none
              | some n =>
                if jHashable t then
                  analyzeLoop rest counts2 (recs ++ [ResourceRecord.mk t n al])
                    (if types.any (fun u => Json.beq u t) then types else types ++ [t])
                else none

/-- The try body of analyze_plan_resources on a parsed document. -/
def analyzeBody (plan : Json) : Option PlanSummary :=
  (pyDictGet plan "resource_changes" (Json.arr [])).bind fun rcs =>
  (pyIter rcs).bind fun changes =>
  (analyzeLoop changes initActions [] []).bind fun st3 =>
  (pySortedJson st3.2.2).bind fun st =>
  some { actions := st3.1, resources := st3.2.1,
         total_resources := st3.2.1.length, resource_types := st }

/-- analyze_plan_resources: a missing or unreadable file, a parse failure and
every exception in the body yield the zeroed summary. -/
def analyze_plan_resources (planFile : Option (Option Json)) : PlanSummary :=
  match planFile with
  | some (some plan) => (analyzeBody plan).getD failSummary
  | _ => failSummary

/-! The exit behavior of main (lines 692-717). -/

/-- The inputs of one run of main: the plan file at tfplan.json, the fallback
terraform directory, and the result field of the JSON-RPC response to the
initialize request (the transport wrapper returns an empty dictionary on any
subprocess or protocol failure). -/
structure MainEnv where
  planFile : Option (Option Json)
  terraformDir : Option (List String)
  mcpInitResult : Json

/-- initialize_mcp (lines 117-137): succeed exactly when the result carries a
capabilities key. -/
def initMcp (result : Json) : Option Bool := pyMemStr "capabilities" result

/-- The exit code of main: 1 when tfplan.json does not exist (line 701), 1
when initialize_mcp fails (line 717), otherwise 0.  The remainder of main
only builds and writes the report: provider extraction and plan analysis are
total, and the metadata lookups and file writes are external effects of the
out-of-scope collaborators, modelled as succeeding.  none models an uncaught
exception. -/
def mainExitCode (env : MainEnv) : Option Nat :=
  match env.planFile with
  | none => some 1
  | some _ =>
    match initMcp env.mcpInitResult with
    | none => none
    | some ok => if ok then some 0 else some 1

/-! Specification-side definitions, written from the wording of the
specification for comparison with the embedded source. -/

/-- A provider reference with the default hashicorp namespace. -/
def mkHashicorp (t : String) : ProviderRef := ProviderRef.mk "hashicorp" t

/-- Extend a list of distinct strings with first occurrences of new ones. -/
def dedupExtend (ds : List String) : List String → List String
  | [] => ds
  | t :: rest => dedupExtend (if bmem t ds then ds else ds ++ [t]) rest

/-- The distinct members of a list, keeping first occurrences. -/
def dedupStr (ts : List String) : List String := dedupExtend [] ts

/-- The leading provider token of one resource-change record, per the
specification: the match of the prefix regex against its type string. -/
def changeToken (c : Json) : Option String :=
  match c with
  | Json.obj fs =>
    match jLookup "type" fs with
    | some (Json.str s) => leadingToken s
    | _ => none
  | _ => none

/-- The resource_changes list of a plan document (empty when absent). -/
def planChangesList (plan : Json) : List Json :=
  match pyDictGet plan "resource_changes" (Json.arr []) with
  | some (Json.arr cs) => cs
  | _ => []

/-- The planned_values.root_module.resources list of a plan document. -/
def planPlannedList (plan : Json) : List Json :=
  match pyDictGet plan "planned_values" (Json.obj []) with
  | some (Json.obj pf) =>
    match jLookup "root_module" pf with
    | none => []
    | some (Json.obj rf) =>
      match jLookup "resources" rf with
      | none => []
      | some (Json.arr rs) => rs
      | some _ => []
    | some _ => []
  | _ => []

/-- The provider tokens of all resource changes and planned resources, in
plan order. -/
def specResourceTokens (plan : Json) : List String :=
  (planChangesList plan).filterMap changeToken ++ (planPlannedList plan).filterMap changeToken

/-- Well-formedness of one resource record for the prefix extraction: a
dictionary whose type is a string or absent. -/
def wfChange (c : Json) : Bool :=
  match c with
  | Json.obj fs =>
    match jLookup "type" fs with
    | none => true
    | some (Json.str _) => true
    | some _ => false
  | _ => false

/-- Well-formedness of a plan document for the prefix extraction. -/
def wfResourceTypes (plan : Json) : Bool :=
  (match pyDictGet plan "resource_changes" (Json.arr []) with
   | some (Json.arr cs) => cs.all wfChange
   | _ => false) &&
  (match pyDictGet plan "planned_values" (Json.obj []) with
   | some (Json.obj pf) =>
     (match jLookup "root_module" pf with
      | none => true
      | some (Json.obj rf) =>
        (match jLookup "resources" rf with
         | none => true
         | some (Json.arr rs) => rs.all wfChange
         | some _ => false)
      | some _ => false)
   | _ => false)

/-- The record the summarizer keeps for one well-formed resource change. -/
def recordOf (c : Json) : ResourceRecord :=
  match c with
  | Json.obj fs =>
    let al :=
      match (jLookup "change" fs).getD (Json.obj []) with
      | Json.obj gs => (jLookup "actions" gs).getD (Json.arr [])
      | _ => Json.arr []
    ResourceRecord.mk ((jLookup "type" fs).getD (Json.str "unknown"))
      ((jLookup "name" fs).getD (Json.str "unknown")) al
  | _ => ResourceRecord.mk (Json.str "unknown") (Json.str "unknown") (Json.arr [])

/-- The strings the action-counting loop iterates over for one resource
change: the string elements of a list-valued actions field, the one-character
strings of a string-valued actions field, the keys of a dictionary-valued
actions field; non-string elements are iterated but are never counter keys. -/
def actionStringsOf (c : Json) : List String :=
  match (recordOf c).actions with
  | Json.arr as => as.filterMap strOfJson
  | Json.str s => s.data.map (fun ch => String.mk [ch])
  | Json.obj hs => hs.map Prod.fst
  | _ => []

/-- All action strings of a plan, in plan order. -/
def allActionStrings (plan : Json) : List String :=
  ((planChangesList plan).map actionStringsOf).flatten

/-- Well-formedness of one resource change for the summarizer: a dictionary
whose change field is absent, or a dictionary whose actions field is absent, a
string, a dictionary, or a list of hashable values, and whose type is absent
or a string (the data model of resource changes). -/
def wfAnalyzeChange (c : Json) : Bool :=
  match c with
  | Json.obj fs =>
    (match jLookup "change" fs with
     | none => true
     | some (Json.obj gs) =>
       (match jLookup "actions" gs with
        | none => true
        | some (Json.arr as) => as.all jHashable
        | some (Json.str _) => true
        | some (Json.obj _) => true
        | some _ => false)
     | some _ => false) &&
    (match jLookup "type" fs with
     | none => true
     | some (Json.str _) => true
     | some _ => false)
  | _ => false

/-- Well-formedness of a plan document for the summarizer. -/
def wfAnalyze (plan : Json) : Bool :=
  match pyDictGet plan "resource_changes" (Json.arr []) with
  | some (Json.arr cs) => cs.all wfAnalyzeChange
  | _ => false

/-- The new elements a key-deduplicating merge appends, given the keys
already seen. -/
def dedupNewKeys (seen : List String) : List ProviderRef → List ProviderRef
  | [] => []
  | p :: rest =>
    if bmem (refKey p) seen then dedupNewKeys seen rest
    else p :: dedupNewKeys (seen ++ [refKey p]) rest

/-- Name-keyed variant of the merge loops, used to state the resource-type
extraction: append each token absent from the accumulated names. -/
def extendTok (acc : List ProviderRef) : List String → List ProviderRef
  | [] => acc
  | t :: rest =>
    extendTok (if bmem t (acc.map ProviderRef.name) then acc else acc ++ [mkHashicorp t]) rest

/-! Concrete documents and directory contents used by witnesses and
counterexamples. -/

/-- A minimal structurally valid plan document. -/
def planFv : Json := Json.obj [("format_version", Json.str "1.0")]

/-- A .tf file declaring block key a with source h/a. -/
def tfFileA : String := "required_providers \x7b a = \x7b source = \"h/a\" \x7d"

/-- A .tf file declaring block key b with source h/b. -/
def tfFileB : String := "required_providers \x7b b = \x7b source = \"h/b\" \x7d"

/-- A .tf file declaring block key b with the same source h/a as tfFileA. -/
def tfFileA2 : String := "required_providers \x7b b = \x7b source = \"h/a\" \x7d"

/-- A valid plan whose provider_configs declares aws and whose resource
changes have types with prefixes aws and google. -/
def planC3 : Json :=
  Json.obj
    [("format_version", Json.str "1.0"),
     ("configuration", Json.obj [("provider_configs", Json.obj [("aws", Json.obj [])])]),
     ("resource_changes",
      Json.arr [Json.obj [("type", Json.str "aws_s3_bucket")],
                Json.obj [("type", Json.str "google_storage_bucket")]])]

/-- A valid plan with no provider_configs and resource changes of types
aws_s3_bucket and azurerm_vm. -/
def planC8 : Json :=
  Json.obj
    [("format_version", Json.str "1.0"),
     ("resource_changes",
      Json.arr [Json.obj [("type", Json.str "aws_s3_bucket")],
                Json.obj [("type", Json.str "azurerm_vm")],
                Json.obj [("type", Json.str "aws_lambda_function")]])]

/-- A plan whose resource_changes list holds a bare number instead of a
change record. -/
def planBadChange : Json := Json.obj [("resource_changes", Json.arr [Json.num 5])]

/-- A plan with one well-formed resource change creating an S3 bucket. -/
def planOneChange : Json :=
  Json.obj
    [("format_version", Json.str "1.0"),
     ("resource_changes",
      Json.arr [Json.obj [("type", Json.str "aws_s3_bucket"), ("name", Json.str "b"),
                          ("change", Json.obj [("actions", Json.arr [Json.str "create"])])]])]

/-- Does the source guard `if full_name and slash-in-full_name` (line 474)
evaluate to false without raising, so that control falls through to the elif
branch?  Case analysis over the Python truthiness and membership rules. -/
def fpnInactiveFields (fs : List (String × Json)) : Bool :=
  match (jLookup "full_provider_name" fs).getD (Json.str "") with
  | Json.str s => if s = "" then true else !(subIn "/".data s.data)
  | Json.null => true
  | Json.bool b => !b
  | Json.num n => n == 0
  | Json.arr xs => xs.isEmpty || !(xs.any (fun x => Json.beq x (Json.str "/")))
  | Json.obj gs => gs.isEmpty || !(bmem "/" (gs.map Prod.fst))

/-! Helper lemmas about list membership and prefixes. -/

theorem bmem_iff {α : Type} [DecidableEq α] (a : α) (l : List α) : bmem a l = true ↔ a ∈ l := by
  induction l with
  | nil => simp [bmem]
  | cons b l ih =>
    by_cases hb : b = a
    · simp [bmem, hb]
    · simp only [bmem, if_neg hb, ih, List.mem_cons]
      constructor
      · exact fun h => Or.inr h
      · rintro (h | h)
        · exact absurd h.symm hb
        · exact h

theorem bmem_false_iff {α : Type} [DecidableEq α] (a : α) (l : List α) :
    bmem a l = false ↔ a ∉ l := by
  simp [← bmem_iff]

theorem bmem_takeUntil_self (c : Char) (l : List Char) : bmem c (takeUntil c l) = false := by
  induction l with
  | nil => rfl
  | cons d rest ih =>
    by_cases h : d = c <;> simp [takeUntil, h, bmem, ih]

theorem takeUntil_of_bmem_false (c : Char) (l : List Char) (h : bmem c l = false) :
    takeUntil c l = l := by
  induction l with
  | nil => rfl
  | cons d rest ih =>
    by_cases hd : d = c
    · simp [bmem, hd] at h
    · simp only [bmem, if_neg hd] at h
      simp [takeUntil, hd, ih h]

theorem bmem_takeUntil_of_false (c d : Char) (l : List Char) (h : bmem c l = false) :
    bmem c (takeUntil d l) = false := by
  induction l with
  | nil => rfl
  | cons a rest ih =>
    by_cases ha : a = c
    · simp [bmem, ha] at h
    · simp only [bmem, if_neg ha] at h
      by_cases had : a = d <;> simp [takeUntil, had, bmem, ha, ih h]

theorem normalizeChars_fixed (l : List Char) (h1 : bmem '.' l = false)
    (h2 : bmem '_' l = false) : normalizeChars l = l := by
  simp only [normalizeChars, takeUntil_of_bmem_false '.' l h1, h2, Bool.false_eq_true,
    if_false]

theorem normalizeChars_idem (l : List Char) :
    normalizeChars (normalizeChars l) = normalizeChars l := by
  have hdot : bmem '.' (takeUntil '.' l) = false := bmem_takeUntil_self '.' l
  by_cases hu : bmem '_' (takeUntil '.' l) = true
  · by_cases hc : (2 ≤ (takeUntil '_' (takeUntil '.' l)).length &&
        (takeUntil '_' (takeUntil '.' l)).length ≤ 10 &&
        pyIsLowerChars (takeUntil '_' (takeUntil '.' l))) = true
    · have h1 : normalizeChars l = takeUntil '_' (takeUntil '.' l) := by
        simp only [normalizeChars, hu, hc, if_true]
      rw [h1]
      exact normalizeChars_fixed _ (bmem_takeUntil_of_false '.' '_' _ hdot)
        (bmem_takeUntil_self '_' _)
    · have h1 : normalizeChars l = takeUntil '.' l := by
        simp only [normalizeChars, hu, if_true, if_neg hc]
      rw [h1]
      simp only [normalizeChars, takeUntil_of_bmem_false '.' _ hdot, hu, if_true, if_neg hc]
  · have h1 : normalizeChars l = takeUntil '.' l := by
      simp only [normalizeChars, if_neg hu]
    rw [h1]
    simp only [normalizeChars, takeUntil_of_bmem_false '.' _ hdot, if_neg hu]

theorem normalize_fixed (s : String) (h1 : bmem '.' s.data = false)
    (h2 : bmem '_' s.data = false) : normalize_provider_name s = s := by
  show String.mk (normalizeChars s.data) = s
  rw [normalizeChars_fixed s.data h1 h2]

/-- C7: provider-name normalization is idempotent: for every string x,
normalize_provider_name (normalize_provider_name x) equals
normalize_provider_name x. -/
theorem c7_normalize_idempotent (x : String) :
    normalize_provider_name (normalize_provider_name x) = normalize_provider_name x := by
  show String.mk (normalizeChars (String.mk (normalizeChars x.data)).data)
      = String.mk (normalizeChars x.data)
  rw [show (String.mk (normalizeChars x.data)).data = normalizeChars x.data from rfl,
    normalizeChars_idem]

theorem bmem_append {α : Type} [DecidableEq α] (a : α) (l1 l2 : List α) :
    bmem a (l1 ++ l2) = (bmem a l1 || bmem a l2) := by
  induction l1 with
  | nil => simp [bmem]
  | cons b l ih =>
    by_cases hb : b = a <;> simp [bmem, hb, ih]

theorem string_append_left_cancel (s t u : String) (h : s ++ t = s ++ u) : t = u := by
  have h2 := congrArg String.data h
  simp only [String.data_append] at h2
  exact String.ext (List.append_cancel_left h2)

theorem refKeys_nodup_of_names (m : List ProviderRef)
    (hh : ∀ p ∈ m, p.ns = "hashicorp") (hnd : (m.map ProviderRef.name).Nodup) :
    (m.map refKey).Nodup := by
  have hmap : m.map refKey = (m.map ProviderRef.name).map (fun n => "hashicorp" ++ "/" ++ n) := by
    rw [List.map_map]
    exact List.map_congr_left (fun p hp => by simp [refKey, hh p hp])
  rw [hmap]
  refine hnd.map ?_
  intro a b hab
  exact string_append_left_cancel ("hashicorp" ++ "/") a b hab

theorem nodupName_append (acc : List ProviderRef) (q : ProviderRef)
    (hnd : (acc.map ProviderRef.name).Nodup)
    (hb : bmem q.name (acc.map ProviderRef.name) = false) :
    ((acc ++ [q]).map ProviderRef.name).Nodup := by
  simp only [List.map_append, List.map_cons, List.map_nil]
  simp [List.nodup_append, hnd, (bmem_false_iff _ _).1 hb]

theorem hashicorp_append (acc : List ProviderRef) (pn : String)
    (hh : ∀ p ∈ acc, p.ns = "hashicorp") :
    ∀ p ∈ acc ++ [ProviderRef.mk "hashicorp" pn], p.ns = "hashicorp" := by
  intro p hp
  rcases List.mem_append.1 hp with h | h
  · exact hh p h
  · simp at h
    subst h
    rfl

theorem rtLoop1_facts (cs : List Json) :
    ∀ acc res, rtLoop1 cs acc = some res →
    (acc.map ProviderRef.name).Nodup → (∀ p ∈ acc, p.ns = "hashicorp") →
    (res.map ProviderRef.name).Nodup ∧ ∀ p ∈ res, p.ns = "hashicorp" := by
  induction cs with
  | nil =>
    intro acc res h hnd hh
    simp only [rtLoop1, Option.some.injEq] at h
    subst h
    exact ⟨hnd, hh⟩
  | cons ch rest ih =>
    intro acc res h hnd hh
    simp only [rtLoop1] at h
    split at h
    · exact absurd h (by simp)
    · split at h
      · split at h
        · split at h
          · split at h
            · exact ih _ _ h hnd hh
            · rename_i hb
              refine ih _ _ h (nodupName_append _ _ hnd ?_) (hashicorp_append _ _ hh)
              simpa using hb
          · exact ih _ _ h hnd hh
        · exact absurd h (by simp)
      · exact ih _ _ h hnd hh

theorem rtLoop2_facts (cs : List Json) :
    ∀ acc res, rtLoop2 cs acc = some res →
    (acc.map ProviderRef.name).Nodup → (∀ p ∈ acc, p.ns = "hashicorp") →
    (res.map ProviderRef.name).Nodup ∧ ∀ p ∈ res, p.ns = "hashicorp" := by
  induction cs with
  | nil =>
    intro acc res h hnd hh
    simp only [rtLoop2, Option.some.injEq] at h
    subst h
    exact ⟨hnd, hh⟩
  | cons ch rest ih =>
    intro acc res h hnd hh
    simp only [rtLoop2] at h
    split at h
    · exact absurd h (by simp)
    · split at h
      · split at h
        · split at h
          · split at h
            · exact ih _ _ h hnd hh
            · rename_i hb
              refine ih _ _ h (nodupName_append _ _ hnd ?_) (hashicorp_append _ _ hh)
              simpa using hb
          · exact ih _ _ h hnd hh
        · exact absurd h (by simp)
      · exact ih _ _ h hnd hh

theorem extract_rt_facts (plan : Json) (m2 : List ProviderRef)
    (h : extract_providers_from_resource_types plan = some m2) :
    (m2.map ProviderRef.name).Nodup ∧ ∀ p ∈ m2, p.ns = "hashicorp" := by
  simp only [extract_providers_from_resource_types, Option.bind_eq_some] at h
  obtain ⟨rcs, h1, pv, h2, rm, h3, changes, h4, l1, h5, rl, h6, ress, h7, h8⟩ := h
  obtain ⟨hnd1, hh1⟩ := rtLoop1_facts _ _ _ h5 (by simp) (by simp)
  exact rtLoop2_facts _ _ _ h8 hnd1 hh1

theorem mergeLoop_eq (nw : List ProviderRef) : ∀ acc : List ProviderRef,
    (nw.map refKey).Nodup →
    mergeLoop nw acc = acc ++ nw.filter (fun p => !bmem (refKey p) (acc.map refKey)) := by
  induction nw with
  | nil => intro acc _; simp [mergeLoop]
  | cons p rest ih =>
    intro acc hnd
    simp only [List.map_cons, List.nodup_cons] at hnd
    obtain ⟨hp, hrest⟩ := hnd
    by_cases hb : bmem (refKey p) (acc.map refKey) = true
    · rw [show mergeLoop (p :: rest) acc = mergeLoop rest acc from by simp [mergeLoop, hb]]
      rw [ih acc hrest]
      simp [List.filter_cons, hb]
    · have hb' : bmem (refKey p) (acc.map refKey) = false := by
        cases hv : bmem (refKey p) (acc.map refKey)
        · rfl
        · exact absurd hv hb
      rw [show mergeLoop (p :: rest) acc = mergeLoop rest (acc ++ [p]) from by
        simp [mergeLoop, hb']]
      rw [ih (acc ++ [p]) hrest]
      have hfilter : rest.filter (fun q => !bmem (refKey q) ((acc ++ [p]).map refKey))
          = rest.filter (fun q => !bmem (refKey q) (acc.map refKey)) := by
        refine List.filter_congr ?_
        intro q hq
        have hne : refKey p ≠ refKey q := by
          intro he
          exact hp (he ▸ List.mem_map_of_mem refKey hq)
        simp [List.map_append, bmem_append, bmem, hne]
      rw [hfilter]
      rw [List.append_assoc]
      simp [List.filter_cons, hb']

/-- C3: on a structurally valid plan, a provider from resource-type prefixes
(step 2) is appended only when its namespace/name key is absent from the
providers of step 1, no step-1 provider is duplicated, and when step 1 yields
nothing the pre-fallback result is exactly the step-2 list. -/
theorem c3_union_semantics (plan : Json) (m1 m2 : List ProviderRef)
    (_hvalid : optFst (validate_plan_structure plan) = some true)
    (hm1 : method1List plan = some m1)
    (hm2 : extract_providers_from_resource_types plan = some m2) :
    mergeLoop m2 m1 = m1 ++ m2.filter (fun p => !bmem (refKey p) (m1.map refKey)) ∧
      (m1 = [] → mergeLoop m2 m1 = m2) := by
  obtain ⟨hnd, hh⟩ := extract_rt_facts plan m2 hm2
  have hkeys := refKeys_nodup_of_names m2 hh hnd
  constructor
  · exact mergeLoop_eq m2 m1 hkeys
  · intro h1
    subst h1
    rw [mergeLoop_eq m2 [] hkeys]
    simp [bmem]

/-- Witness for C3 at a concrete plan declaring aws in provider_configs with
aws and google resource-type prefixes. -/
theorem c3_witness :
    mergeLoop [mkHashicorp "aws", mkHashicorp "google"] [mkHashicorp "aws"]
      = [mkHashicorp "aws"] ++ ([mkHashicorp "aws", mkHashicorp "google"].filter
          (fun p => !bmem (refKey p) ([mkHashicorp "aws"].map refKey))) :=
  (c3_union_semantics planC3 [mkHashicorp "aws"] [mkHashicorp "aws", mkHashicorp "google"]
    (by decide) (by decide) (by decide)).1

/-- C2: when the plan file is missing, unreadable as JSON, or structurally
invalid, extract_providers_from_plan returns exactly the file-based scanner
result on the fallback directory (no exception escapes: the embedded function
is total). -/
theorem c2_fallback_totality (pf : Option (Option Json)) (dir : Option (List String))
    (h : pf = none ∨ pf = some none ∨
      ∃ j m, pf = some (some j) ∧ validate_plan_structure j = some (false, m)) :
    extract_providers_from_plan pf dir = extract_providers_from_terraform_files dir := by
  rcases h with h | h | ⟨j, m, hpf, hval⟩
  · rw [h]
    rfl
  · rw [h]
    rfl
  · subst hpf
    simp only [extract_providers_from_plan, extractBody, hval]
    rfl

/-- Witness for C2 at a missing plan file over a one-file directory. -/
theorem c2_witness :
    extract_providers_from_plan none (some [tfFileA])
      = extract_providers_from_terraform_files (some [tfFileA]) :=
  c2_fallback_totality none (some [tfFileA]) (Or.inl rfl)

/-- C6: a parsed plan document is reported structurally invalid exactly when
it is the empty object or lacks both format_version and terraform_version; a
document with one of those keys but no configuration is still valid; and the
empty object falls back to the directory scan. -/
theorem c6_validate_iff (fs : List (String × Json)) (dir : Option (List String)) :
    ((optFst (validate_plan_structure (Json.obj fs)) = some false) ↔
      (fs = [] ∨ (bmem "format_version" (fs.map Prod.fst) = false ∧
        bmem "terraform_version" (fs.map Prod.fst) = false))) ∧
    extract_providers_from_plan (some (some (Json.obj []))) dir
      = extract_providers_from_terraform_files dir := by
  constructor
  · cases fs with
    | nil => simp [validate_plan_structure, optFst, jTruthy]
    | cons kv rest =>
      have htr : jTruthy (Json.obj (kv :: rest)) = true := rfl
      by_cases hfv : bmem "format_version" (kv.1 :: rest.map Prod.fst) = true
      · simp [validate_plan_structure, optFst, htr, pyMemStr, pyDictGet, hfv]
      · have hfv' : bmem "format_version" (kv.1 :: rest.map Prod.fst) = false := by
          cases hv : bmem "format_version" (kv.1 :: rest.map Prod.fst)
          · rfl
          · exact absurd hv hfv
        by_cases htv : bmem "terraform_version" (kv.1 :: rest.map Prod.fst) = true
        · simp [validate_plan_structure, optFst, htr, pyMemStr, pyDictGet, hfv', htv]
        · have htv' : bmem "terraform_version" (kv.1 :: rest.map Prod.fst) = false := by
            cases hv : bmem "terraform_version" (kv.1 :: rest.map Prod.fst)
            · rfl
            · exact absurd hv htv
          simp [validate_plan_structure, optFst, htr, pyMemStr, pyDictGet, hfv', htv']
  · rfl

theorem nameFieldRef_none (fs : List (String × Json)) (base : String)
    (h : jLookup "name" fs = none) :
    nameFieldRef fs base = some (ProviderRef.mk "hashicorp" base) := by
  simp [nameFieldRef, h]

theorem nameFieldRef_str (fs : List (String × Json)) (base s : String)
    (h : jLookup "name" fs = some (Json.str s)) :
    nameFieldRef fs base = some (ProviderRef.mk "hashicorp" (normalize_provider_name s)) := by
  simp [nameFieldRef, h]

theorem providerRef_of_fpnInactive (k : String) (fs : List (String × Json))
    (hin : fpnInactiveFields fs = true) :
    providerRefOfConfigEntry k (Json.obj fs)
      = nameFieldRef fs (normalize_provider_name k) := by
  simp only [providerRefOfConfigEntry]
  cases hfn : (jLookup "full_provider_name" fs).getD (Json.str "") with
  | null => rfl
  | bool b =>
    simp only [fpnInactiveFields, hfn] at hin
    have hb : b = false := by simpa using hin
    subst hb
    rfl
  | num n =>
    simp only [fpnInactiveFields, hfn] at hin
    have : n = 0 := by simpa using hin
    subst this
    rfl
  | str s =>
    simp only [fpnInactiveFields, hfn] at hin
    by_cases hs : s = ""
    · subst hs
      rfl
    · rw [if_neg hs] at hin
      have hsub : subIn "/".data s.data = false := by simpa using hin
      have htr : jTruthy (Json.str s) = true := by
        simp only [jTruthy]
        cases hd : s.data with
        | nil => exact absurd (String.ext (by rw [hd])) hs
        | cons c l => rfl
      simp [htr, pyMemStr, hsub]
  | arr xs =>
    simp only [fpnInactiveFields, hfn] at hin
    by_cases hxe : xs.isEmpty = true
    · have : xs = [] := by simpa using hxe
      subst this
      rfl
    · have hany : (xs.any (fun x => Json.beq x (Json.str "/"))) = false := by
        rcases Bool.or_eq_true_iff.1 hin with h | h
        · exact absurd h hxe
        · simpa using h
      have htr : jTruthy (Json.arr xs) = true := by
        simp only [jTruthy]
        cases xs with
        | nil => exact absurd rfl hxe
        | cons a l => rfl
      simp [htr, pyMemStr, hany]
  | obj gs =>
    simp only [fpnInactiveFields, hfn] at hin
    by_cases hxe : gs.isEmpty = true
    · have : gs = [] := by simpa using hxe
      subst this
      rfl
    · have hany : bmem "/" (gs.map Prod.fst) = false := by
        rcases Bool.or_eq_true_iff.1 hin with h | h
        · exact absurd h hxe
        · simpa using h
      have htr : jTruthy (Json.obj gs) = true := by
        simp only [jTruthy]
        cases gs with
        | nil => exact absurd rfl hxe
        | cons a l => rfl
      simp [htr, pyMemStr, hany]

/-- C4 (amended): the provider reference extracted from a provider_configs
entry: when the value carries a full_provider_name string that is nonempty and
contains a slash, namespace and name come from splitting it at the first
slash, the name re-normalized; otherwise, when the value is a dictionary with
a name string, the name is that string normalized under the hashicorp
namespace; in all remaining non-raising cases the name is the normalized entry
key under the hashicorp namespace. -/
theorem c4_config_entry_spec (k : String) (v : Json) :
    ((∀ fs, v ≠ Json.obj fs) →
      providerRefOfConfigEntry k v
        = some (ProviderRef.mk "hashicorp" (normalize_provider_name k))) ∧
    (∀ fs, v = Json.obj fs → fpnInactiveFields fs = true →
      ((jLookup "name" fs = none →
        providerRefOfConfigEntry k v
          = some (ProviderRef.mk "hashicorp" (normalize_provider_name k))) ∧
       (∀ s, jLookup "name" fs = some (Json.str s) →
        providerRefOfConfigEntry k v
          = some (ProviderRef.mk "hashicorp" (normalize_provider_name s))))) ∧
    (∀ fs s, v = Json.obj fs →
      jLookup "full_provider_name" fs = some (Json.str s) → s ≠ "" →
      subIn "/".data s.data = true →
      providerRefOfConfigEntry k v
        = some (ProviderRef.mk (pySplit1 s '/').1
            (normalize_provider_name (pySplit1 s '/').2))) := by
  refine ⟨?_, ?_, ?_⟩
  · intro h
    cases v with
    | obj fs => exact absurd rfl (h fs)
    | null => rfl
    | bool b => rfl
    | num n => rfl
    | str s => rfl
    | arr xs => rfl
  · intro fs hv hin
    subst hv
    rw [providerRef_of_fpnInactive k fs hin]
    constructor
    · intro h
      exact nameFieldRef_none fs _ h
    · intro s h
      exact nameFieldRef_str fs _ s h
  · intro fs s hv hfn hs hsub
    subst hv
    have htr : jTruthy (Json.str s) = true := by
      simp only [jTruthy]
      cases hd : s.data with
      | nil => exact absurd (String.ext (by rw [hd])) hs
      | cons c l => rfl
    simp [providerRefOfConfigEntry, hfn, htr, pyMemStr, hsub]

/-- Counterexample to C4 as stated: the entry aws with value a dictionary
carrying name google has no full_provider_name, yet its extracted reference is
hashicorp/google, not the normalized key hashicorp/aws. -/
theorem c4_counterexample :
    providerRefOfConfigEntry "aws" (Json.obj [("name", Json.str "google")])
        = some (ProviderRef.mk "hashicorp" "google") ∧
      ProviderRef.mk "hashicorp" "google"
        ≠ ProviderRef.mk "hashicorp" (normalize_provider_name "aws") := by
  constructor
  · rfl
  · decide

/-- Witness for C4 (amended) at concrete entries. -/
theorem c4_witness :
    providerRefOfConfigEntry "aws" (Json.obj [("name", Json.str "google")])
        = some (ProviderRef.mk "hashicorp" (normalize_provider_name "google")) ∧
      providerRefOfConfigEntry "gcp" (Json.obj [("full_provider_name", Json.str "myorg/gcp.x")])
        = some (ProviderRef.mk (pySplit1 "myorg/gcp.x" '/').1
            (normalize_provider_name (pySplit1 "myorg/gcp.x" '/').2)) :=
  ⟨((c4_config_entry_spec "aws" (Json.obj [("name", Json.str "google")])).2.1
      [("name", Json.str "google")] rfl (by decide)).2 "google" rfl,
   (c4_config_entry_spec "gcp" (Json.obj [("full_provider_name", Json.str "myorg/gcp.x")])).2.2
      [("full_provider_name", Json.str "myorg/gcp.x")] "myorg/gcp.x" rfl rfl
      (by decide) (by decide)⟩

theorem leadingToken_no_special (s t : String) (h : leadingToken s = some t) :
    bmem '.' t.data = false ∧ bmem '_' t.data = false := by
  cases hsd : s.data with
  | nil => simp [leadingToken, hsd] at h
  | cons c rest =>
    simp only [leadingToken, hsd] at h
    by_cases hc : c.isLower = true
    · rw [if_pos hc] at h
      cases hdw : rest.dropWhile (fun d => d.isLower || d.isDigit) with
      | nil => rw [hdw] at h; simp at h
      | cons d tail =>
        simp only [hdw] at h
        by_cases hd : d = '_'
        · rw [if_pos hd] at h
          simp only [Option.some.injEq] at h
          subst h
          constructor
          · refine (bmem_false_iff _ _).2 ?_
            intro hm
            rcases List.mem_cons.1 hm with h1 | h1
            · rw [← h1] at hc
              exact absurd hc (by decide)
            · have := List.mem_takeWhile_imp h1
              exact absurd this (by decide)
          · refine (bmem_false_iff _ _).2 ?_
            intro hm
            rcases List.mem_cons.1 hm with h1 | h1
            · rw [← h1] at hc
              exact absurd hc (by decide)
            · have := List.mem_takeWhile_imp h1
              exact absurd this (by decide)
        · rw [if_neg hd] at h
          simp at h
    · rw [if_neg hc] at h
      simp at h

theorem normalize_token_fixed (s t : String) (h : leadingToken s = some t) :
    normalize_provider_name t = t := by
  obtain ⟨h1, h2⟩ := leadingToken_no_special s t h
  exact normalize_fixed t h1 h2

theorem changeToken_some (c : Json) (t : String) (h : changeToken c = some t) :
    ∃ s, leadingToken s = some t := by
  cases c with
  | obj fs =>
    simp only [changeToken] at h
    split at h
    · rename_i s hs
      exact ⟨s, h⟩
    · exact absurd h (by simp)
  | null => simp [changeToken] at h
  | bool b => simp [changeToken] at h
  | num n => simp [changeToken] at h
  | str s => simp [changeToken] at h
  | arr xs => simp [changeToken] at h

theorem jTruthy_str_of_ne (s : String) (hs : s ≠ "") : jTruthy (Json.str s) = true := by
  simp only [jTruthy]
  cases hd : s.data with
  | nil => exact absurd (String.ext (by rw [hd])) hs
  | cons c l => rfl

theorem rtLoop1_wf (cs : List Json) : ∀ acc, cs.all wfChange = true →
    rtLoop1 cs acc = some (extendTok acc
      (cs.filterMap (fun c => (changeToken c).map normalize_provider_name))) := by
  induction cs with
  | nil => intro acc _; rfl
  | cons ch rest ih =>
    intro acc hwf
    simp only [List.all_cons, Bool.and_eq_true] at hwf
    obtain ⟨hch, hrest⟩ := hwf
    cases ch with
    | obj fs =>
      cases hty : jLookup "type" fs with
      | none =>
        have hstep : rtLoop1 (Json.obj fs :: rest) acc = rtLoop1 rest acc := by
          simp [rtLoop1, pyDictGet, hty, jTruthy]
        rw [hstep, ih acc hrest]
        simp [changeToken, hty]
      | some v =>
        cases v with
        | str s =>
          by_cases hse : s = ""
          · subst hse
            have hstep : rtLoop1 (Json.obj fs :: rest) acc = rtLoop1 rest acc := by
              simp [rtLoop1, pyDictGet, hty, jTruthy]
            rw [hstep, ih acc hrest]
            simp [changeToken, hty, leadingToken]
          · have htr := jTruthy_str_of_ne s hse
            cases hlt : leadingToken s with
            | none =>
              have hstep : rtLoop1 (Json.obj fs :: rest) acc = rtLoop1 rest acc := by
                simp [rtLoop1, pyDictGet, hty, htr, hlt]
              rw [hstep, ih acc hrest]
              simp [changeToken, hty, hlt]
            | some tok =>
              have hstep : rtLoop1 (Json.obj fs :: rest) acc
                  = rtLoop1 rest
                    (if bmem (normalize_provider_name tok) (acc.map ProviderRef.name) then acc
                     else acc ++ [ProviderRef.mk "hashicorp" (normalize_provider_name tok)]) := by
                simp [rtLoop1, pyDictGet, hty, htr, hlt]
              rw [hstep, ih _ hrest]
              simp [changeToken, hty, hlt, extendTok, mkHashicorp]
        | null => simp [wfChange, hty] at hch
        | bool b => simp [wfChange, hty] at hch
        | num n => simp [wfChange, hty] at hch
        | arr xs => simp [wfChange, hty] at hch
        | obj gs => simp [wfChange, hty] at hch
    | null => simp [wfChange] at hch
    | bool b => simp [wfChange] at hch
    | num n => simp [wfChange] at hch
    | str s => simp [wfChange] at hch
    | arr xs => simp [wfChange] at hch

theorem rtLoop2_wf (cs : List Json) : ∀ acc, cs.all wfChange = true →
    rtLoop2 cs acc = some (extendTok acc (cs.filterMap changeToken)) := by
  induction cs with
  | nil => intro acc _; rfl
  | cons ch rest ih =>
    intro acc hwf
    simp only [List.all_cons, Bool.and_eq_true] at hwf
    obtain ⟨hch, hrest⟩ := hwf
    cases ch with
    | obj fs =>
      cases hty : jLookup "type" fs with
      | none =>
        have hstep : rtLoop2 (Json.obj fs :: rest) acc = rtLoop2 rest acc := by
          simp [rtLoop2, pyDictGet, hty, jTruthy]
        rw [hstep, ih acc hrest]
        simp [changeToken, hty]
      | some v =>
        cases v with
        | str s =>
          by_cases hse : s = ""
          · subst hse
            have hstep : rtLoop2 (Json.obj fs :: rest) acc = rtLoop2 rest acc := by
              simp [rtLoop2, pyDictGet, hty, jTruthy]
            rw [hstep, ih acc hrest]
            simp [changeToken, hty, leadingToken]
          · have htr := jTruthy_str_of_ne s hse
            cases hlt : leadingToken s with
            | none =>
              have hstep : rtLoop2 (Json.obj fs :: rest) acc = rtLoop2 rest acc := by
                simp [rtLoop2, pyDictGet, hty, htr, hlt]
              rw [hstep, ih acc hrest]
              simp [changeToken, hty, hlt]
            | some tok =>
              have hstep : rtLoop2 (Json.obj fs :: rest) acc
                  = rtLoop2 rest
                    (if bmem tok (acc.map ProviderRef.name) then acc
                     else acc ++ [ProviderRef.mk "hashicorp" tok]) := by
                simp [rtLoop2, pyDictGet, hty, htr, hlt]
              rw [hstep, ih _ hrest]
              simp [changeToken, hty, hlt, extendTok, mkHashicorp]
        | null => simp [wfChange, hty] at hch
        | bool b => simp [wfChange, hty] at hch
        | num n => simp [wfChange, hty] at hch
        | arr xs => simp [wfChange, hty] at hch
        | obj gs => simp [wfChange, hty] at hch
    | null => simp [wfChange] at hch
    | bool b => simp [wfChange] at hch
    | num n => simp [wfChange] at hch
    | str s => simp [wfChange] at hch
    | arr xs => simp [wfChange] at hch

theorem extendTok_append (ts us : List String) : ∀ acc,
    extendTok acc (ts ++ us) = extendTok (extendTok acc ts) us := by
  induction ts with
  | nil => intro acc; rfl
  | cons t rest ih =>
    intro acc
    simp only [List.cons_append, extendTok]
    exact ih _

theorem extendTok_maps (ts : List String) : ∀ ds : List String,
    extendTok (ds.map mkHashicorp) ts = (dedupExtend ds ts).map mkHashicorp := by
  induction ts with
  | nil => intro ds; rfl
  | cons t rest ih =>
    intro ds
    have hnames : (ds.map mkHashicorp).map ProviderRef.name = ds := by
      rw [List.map_map]
      exact (List.map_congr_left (fun a _ => rfl)).trans (List.map_id ds)
    simp only [extendTok, dedupExtend, hnames]
    by_cases hb : bmem t ds = true
    · rw [if_pos hb, if_pos hb]
      exact ih ds
    · rw [if_neg hb, if_neg hb]
      rw [show (ds.map mkHashicorp) ++ [mkHashicorp t] = (ds ++ [t]).map mkHashicorp from by
        simp]
      exact ih (ds ++ [t])

theorem dedupExtend_nodup (ts : List String) : ∀ ds : List String, ds.Nodup →
    (dedupExtend ds ts).Nodup := by
  induction ts with
  | nil => intro ds h; exact h
  | cons t rest ih =>
    intro ds h
    simp only [dedupExtend]
    by_cases hb : bmem t ds = true
    · rw [if_pos hb]
      exact ih ds h
    · rw [if_neg hb]
      refine ih (ds ++ [t]) ?_
      have hnm : t ∉ ds := by
        intro hm
        exact hb ((bmem_iff t ds).2 hm)
      simp [List.nodup_append, h, hnm]

theorem dedupExtend_mem (ts : List String) : ∀ ds x, x ∈ dedupExtend ds ts →
    x ∈ ds ∨ x ∈ ts := by
  induction ts with
  | nil => intro ds x h; exact Or.inl h
  | cons t rest ih =>
    intro ds x h
    simp only [dedupExtend] at h
    by_cases hb : bmem t ds = true
    · rw [if_pos hb] at h
      rcases ih ds x h with h1 | h1
      · exact Or.inl h1
      · exact Or.inr (List.mem_cons_of_mem t h1)
    · rw [if_neg hb] at h
      rcases ih (ds ++ [t]) x h with h1 | h1
      · rcases List.mem_append.1 h1 with h2 | h2
        · exact Or.inl h2
        · simp at h2
          subst h2
          exact Or.inr (List.mem_cons_self x rest)
      · exact Or.inr (List.mem_cons_of_mem t h1)

theorem wf_rt_eval (plan : Json) (hwf : wfResourceTypes plan = true) :
    extract_providers_from_resource_types plan
      = some (extendTok (extendTok []
          ((planChangesList plan).filterMap
            (fun c => (changeToken c).map normalize_provider_name)))
          ((planPlannedList plan).filterMap changeToken)) := by
  simp only [wfResourceTypes, Bool.and_eq_true] at hwf
  obtain ⟨hA, hB⟩ := hwf
  cases hrc : pyDictGet plan "resource_changes" (Json.arr []) with
  | none => rw [hrc] at hA; simp at hA
  | some rcs =>
    rw [hrc] at hA
    cases rcs with
    | null => simp at hA
    | bool b => simp at hA
    | num n => simp at hA
    | str s => simp at hA
    | obj gs => simp at hA
    | arr cs =>
      cases hpv : pyDictGet plan "planned_values" (Json.obj []) with
      | none => rw [hpv] at hB; simp at hB
      | some pv =>
        rw [hpv] at hB
        cases pv with
        | null => simp at hB
        | bool b => simp at hB
        | num n => simp at hB
        | str s => simp at hB
        | arr xs => simp at hB
        | obj pf =>
          simp only [extract_providers_from_resource_types, hrc, hpv, Option.some_bind]
          cases hrm : jLookup "root_module" pf with
          | none =>
            have h1 : pyDictGet (Json.obj pf) "root_module" (Json.obj [])
                = some (Json.obj []) := by simp [pyDictGet, hrm]
            rw [h1]
            simp only [Option.some_bind]
            rw [show pyIter (Json.arr cs) = some cs from rfl]
            simp only [Option.some_bind]
            rw [rtLoop1_wf cs [] hA]
            simp only [Option.some_bind]
            rw [show pyDictGet (Json.obj []) "resources" (Json.arr [])
                = some (Json.arr []) from rfl]
            simp only [Option.some_bind]
            rw [show pyIter (Json.arr []) = some [] from rfl]
            simp only [Option.some_bind]
            rw [rtLoop2_wf [] _ rfl]
            have hpc : planChangesList plan = cs := by simp [planChangesList, hrc]
            have hpp : planPlannedList plan = [] := by simp [planPlannedList, hpv, hrm]
            rw [hpc, hpp]
          | some rmv =>
            simp only [hrm] at hB
            cases rmv with
            | null => simp at hB
            | bool b => simp at hB
            | num n => simp at hB
            | str s => simp at hB
            | arr xs => simp at hB
            | obj rf =>
              have h1 : pyDictGet (Json.obj pf) "root_module" (Json.obj [])
                  = some (Json.obj rf) := by simp [pyDictGet, hrm]
              rw [h1]
              simp only [Option.some_bind]
              rw [show pyIter (Json.arr cs) = some cs from rfl]
              simp only [Option.some_bind]
              rw [rtLoop1_wf cs [] hA]
              simp only [Option.some_bind]
              cases hres : jLookup "resources" rf with
              | none =>
                have h2 : pyDictGet (Json.obj rf) "resources" (Json.arr [])
                    = some (Json.arr []) := by simp [pyDictGet, hres]
                rw [h2]
                simp only [Option.some_bind]
                rw [show pyIter (Json.arr []) = some [] from rfl]
                simp only [Option.some_bind]
                rw [rtLoop2_wf [] _ rfl]
                have hpc : planChangesList plan = cs := by simp [planChangesList, hrc]
                have hpp : planPlannedList plan = [] := by
                  simp [planPlannedList, hpv, hrm, hres]
                rw [hpc, hpp]
              | some resv =>
                simp only [hres] at hB
                cases resv with
                | null => simp at hB
                | bool b => simp at hB
                | num n => simp at hB
                | str s => simp at hB
                | obj hs => simp at hB
                | arr rs =>
                  have h2 : pyDictGet (Json.obj rf) "resources" (Json.arr [])
                      = some (Json.arr rs) := by simp [pyDictGet, hres]
                  rw [h2]
                  simp only [Option.some_bind]
                  rw [show pyIter (Json.arr rs) = some rs from rfl]
                  simp only [Option.some_bind]
                  rw [rtLoop2_wf rs _ hB]
                  have hpc : planChangesList plan = cs := by simp [planChangesList, hrc]
                  have hpp : planPlannedList plan = rs := by
                    simp [planPlannedList, hpv, hrm, hres]
                  rw [hpc, hpp]

theorem mergeLoop_self (m : List ProviderRef) (hnd : (m.map refKey).Nodup) :
    mergeLoop m [] = m := by
  rw [mergeLoop_eq m [] hnd]
  simp [bmem]

theorem finalLoop_fixed (l : List ProviderRef) : ∀ acc,
    (∀ p ∈ l, normalize_provider_name p.name = p.name) →
    (l.map normKey).Nodup →
    (∀ p ∈ l, bmem (normKey p) (acc.map Prod.fst) = false) →
    finalLoop l acc = acc ++ l.map (fun p => (normKey p, p)) := by
  induction l with
  | nil => intro acc _ _ _; simp [finalLoop]
  | cons p rest ih =>
    intro acc hfix hnd hdisj
    have hp : bmem (normKey p) (acc.map Prod.fst) = false :=
      hdisj p (List.mem_cons_self p rest)
    have hmk : ProviderRef.mk p.ns (normalize_provider_name p.name) = p := by
      rw [hfix p (List.mem_cons_self p rest)]
    have hstep : finalLoop (p :: rest) acc = finalLoop rest (acc ++ [(normKey p, p)]) := by
      simp only [finalLoop, hp, Bool.false_eq_true, if_false, hmk]
    rw [hstep]
    simp only [List.map_cons, List.nodup_cons] at hnd
    obtain ⟨hndp, hndrest⟩ := hnd
    have hdisj2 : ∀ q ∈ rest, bmem (normKey q) ((acc ++ [(normKey p, p)]).map Prod.fst) = false := by
      intro q hq
      rw [List.map_append, bmem_append]
      have h1 := hdisj q (List.mem_cons_of_mem p hq)
      have h2 : bmem (normKey q) ([(normKey p, p)].map Prod.fst) = false := by
        have hne : normKey p ≠ normKey q := fun he => hndp (he ▸ List.mem_map_of_mem normKey hq)
        simp only [List.map_cons, List.map_nil, bmem]
        simp [hne]
      rw [h1, h2]
      rfl
    rw [ih _ (fun q hq => hfix q (List.mem_cons_of_mem p hq)) hndrest hdisj2]
    rw [List.append_assoc]
    rfl

theorem finalNormalize_fixed (l : List ProviderRef)
    (hfix : ∀ p ∈ l, normalize_provider_name p.name = p.name)
    (hnd : (l.map normKey).Nodup) : finalNormalize l = l := by
  unfold finalNormalize
  rw [finalLoop_fixed l [] hfix hnd (fun p _ => rfl)]
  rw [List.nil_append, List.map_map]
  exact (List.map_congr_left (fun a _ => rfl)).trans (List.map_id l)

/-- C8: on a structurally valid plan whose configuration yields no
provider_configs entries, the plan-based extraction (no fallback directory
present) returns exactly one hashicorp ProviderRef per distinct leading token
of the resource-change and planned-resource type strings, in first-discovery
order, and each appears once. -/
theorem c8_resource_prefix_extraction (plan : Json)
    (hvalid : optFst (validate_plan_structure plan) = some true)
    (hm1 : method1List plan = some [])
    (hwf : wfResourceTypes plan = true) :
    extract_providers_from_plan (some (some plan)) none
      = (dedupStr (specResourceTokens plan)).map mkHashicorp ∧
    (dedupStr (specResourceTokens plan)).Nodup := by
  have hnodup : (dedupStr (specResourceTokens plan)).Nodup :=
    dedupExtend_nodup _ [] List.nodup_nil
  have htok : ∀ t ∈ specResourceTokens plan, normalize_provider_name t = t := by
    intro t ht
    rcases List.mem_append.1 ht with h | h <;>
    · rcases List.mem_filterMap.1 h with ⟨c, hc, hct⟩
      obtain ⟨s, hs⟩ := changeToken_some c t hct
      exact normalize_token_fixed s t hs
  have hts1 : (planChangesList plan).filterMap
        (fun c => (changeToken c).map normalize_provider_name)
      = (planChangesList plan).filterMap changeToken := by
    refine List.filterMap_congr ?_
    intro c _
    cases hct : changeToken c with
    | none => rfl
    | some t =>
      obtain ⟨s, hs⟩ := changeToken_some c t hct
      simp [normalize_token_fixed s t hs]
  have hrt := wf_rt_eval plan hwf
  rw [hts1] at hrt
  have hm2 : extract_providers_from_resource_types plan
      = some ((dedupStr (specResourceTokens plan)).map mkHashicorp) := by
    rw [hrt, ← extendTok_append]
    exact congrArg some (extendTok_maps _ [])
  obtain ⟨msg, hval⟩ : ∃ m, validate_plan_structure plan = some (true, m) := by
    cases hv : validate_plan_structure plan with
    | none => rw [hv] at hvalid; simp [optFst] at hvalid
    | some bm =>
      rcases bm with ⟨b, m⟩
      rw [hv] at hvalid
      simp only [optFst, Option.some.injEq] at hvalid
      subst hvalid
      exact ⟨m, rfl⟩
  set M := (dedupStr (specResourceTokens plan)).map mkHashicorp with hM
  have hnames : M.map ProviderRef.name = dedupStr (specResourceTokens plan) := by
    rw [hM, List.map_map]
    exact (List.map_congr_left (fun a _ => rfl)).trans (List.map_id _)
  have hnsall : ∀ p ∈ M, p.ns = "hashicorp" := by
    intro p hp
    rcases List.mem_map.1 hp with ⟨t, _, he⟩
    rw [← he]
    rfl
  have hknd : (M.map refKey).Nodup :=
    refKeys_nodup_of_names M hnsall (by rw [hnames]; exact hnodup)
  have hself : mergeLoop M [] = M := mergeLoop_self M hknd
  have hfix : ∀ p ∈ M, normalize_provider_name p.name = p.name := by
    intro p hp
    rcases List.mem_map.1 hp with ⟨t, htm, he⟩
    rcases dedupExtend_mem _ [] t htm with h | h
    · exact absurd h (List.not_mem_nil t)
    · rw [← he]
      exact htok t h
  have hnormnd : (M.map normKey).Nodup := by
    have : M.map normKey = M.map refKey :=
      List.map_congr_left (fun p hp => by
        simp only [normKey, refKey, hfix p hp])
    rw [this]
    exact hknd
  have hfinal : finalNormalize M = M := finalNormalize_fixed M hfix hnormnd
  refine ⟨?_, hnodup⟩
  simp only [extract_providers_from_plan, extractBody, hval, hm1, hm2, Option.some_bind]
  rw [hself]
  by_cases hemp : M.isEmpty = true
  · simp only [hemp, if_true]
    rw [show mergeLoop (extract_providers_from_terraform_files none) M = M from rfl]
    rw [hfinal]
    rfl
  · simp only [hemp, Bool.false_eq_true, if_false]
    rw [hfinal]
    rfl

/-- Witness for C8 at a concrete valid plan with aws and azurerm resource
types. -/
theorem c8_witness :
    optFst (validate_plan_structure planC8) = some true ∧
    method1List planC8 = some [] ∧
    wfResourceTypes planC8 = true ∧
    extract_providers_from_plan (some (some planC8)) none
      = (dedupStr (specResourceTokens planC8)).map mkHashicorp :=
  ⟨by decide, by decide, by decide,
   (c8_resource_prefix_extraction planC8 (by decide) (by decide) (by decide)).1⟩

theorem takeUntil_append_self (c : Char) (l m : List Char) (h : bmem c l = false) :
    takeUntil c (l ++ c :: m) = l := by
  induction l with
  | nil => simp [takeUntil]
  | cons a rest ih =>
    by_cases ha : a = c
    · simp [bmem, ha] at h
    · simp only [bmem, if_neg ha] at h
      simp [takeUntil, ha, ih h]

theorem dropAfter_append_self (c : Char) (l m : List Char) (h : bmem c l = false) :
    dropAfter c (l ++ c :: m) = m := by
  induction l with
  | nil => simp [dropAfter]
  | cons a rest ih =>
    by_cases ha : a = c
    · simp [bmem, ha] at h
    · simp only [bmem, if_neg ha] at h
      simp [dropAfter, ha, ih h]

theorem refKey_inj (p q : ProviderRef)
    (hp : bmem '/' p.ns.data = false) (hq : bmem '/' q.ns.data = false)
    (h : refKey p = refKey q) : p = q := by
  have hd : p.ns.data ++ '/' :: p.name.data = q.ns.data ++ '/' :: q.name.data := by
    have h2 := congrArg String.data h
    simpa [refKey, String.data_append, List.append_assoc] using h2
  have hns : p.ns.data = q.ns.data := by
    have h1 := takeUntil_append_self '/' p.ns.data p.name.data hp
    have h2 := takeUntil_append_self '/' q.ns.data q.name.data hq
    rw [← h1, ← h2, hd]
  have hname : p.name.data = q.name.data := by
    have h1 := dropAfter_append_self '/' p.ns.data p.name.data hp
    have h2 := dropAfter_append_self '/' q.ns.data q.name.data hq
    rw [← h1, ← h2, hd]
  cases p with
  | mk pns pname =>
    cases q with
    | mk qns qname =>
      simp only at hns hname
      rw [String.ext hns, String.ext hname]

theorem mergeLoop_dedupNew (nw : List ProviderRef) : ∀ acc : List ProviderRef,
    mergeLoop nw acc = acc ++ dedupNewKeys (acc.map refKey) nw := by
  induction nw with
  | nil => intro acc; simp [mergeLoop, dedupNewKeys]
  | cons p rest ih =>
    intro acc
    by_cases hb : bmem (refKey p) (acc.map refKey) = true
    · simp only [mergeLoop, hb, if_true, dedupNewKeys]
      exact ih acc
    · have hb' : bmem (refKey p) (acc.map refKey) = false := by
        cases hv : bmem (refKey p) (acc.map refKey)
        · rfl
        · exact absurd hv hb
      simp only [mergeLoop, hb', Bool.false_eq_true, if_false, dedupNewKeys]
      rw [ih (acc ++ [p]), List.map_append, List.append_assoc]
      rfl

theorem splitChar_not_mem (c : Char) (l : List Char) :
    ∀ part ∈ splitChar c l, bmem c part = false := by
  induction l with
  | nil =>
    intro part hp
    simp only [splitChar, List.mem_singleton] at hp
    subst hp
    rfl
  | cons a rest ih =>
    intro part hp
    by_cases ha : a = c
    · simp only [splitChar, if_pos ha] at hp
      rcases List.mem_cons.1 hp with h1 | h1
      · subst h1
        rfl
      · exact ih part h1
    · simp only [splitChar, if_neg ha] at hp
      cases hsp : splitChar c rest with
      | nil =>
        rw [hsp] at hp
        simp only [List.mem_singleton] at hp
        subst hp
        simp [bmem, ha]
      | cons hh tt =>
        rw [hsp] at hp
        rcases List.mem_cons.1 hp with h1 | h1
        · subst h1
          have hhh : bmem c hh = false := ih hh (hsp ▸ List.mem_cons_self hh tt)
          simp [bmem, ha, hhh]
        · exact ih part (hsp ▸ List.mem_cons_of_mem hh h1)

theorem scanPairsLoop_slashfree (prs : List (String × String)) :
    ∀ acc, (∀ kp ∈ acc, bmem '/' kp.2.ns.data = false) →
    ∀ kp ∈ scanPairsLoop prs acc, bmem '/' kp.2.ns.data = false := by
  induction prs with
  | nil => intro acc hacc kp hkp; exact hacc kp hkp
  | cons pr rest ih =>
    intro acc hacc kp hkp
    rcases pr with ⟨pname, source⟩
    by_cases hb : bmem pname (acc.map Prod.fst) = true
    · rw [show scanPairsLoop ((pname, source) :: rest) acc = scanPairsLoop rest acc from by
        simp [scanPairsLoop, hb]] at hkp
      exact ih acc hacc kp hkp
    · have hb' : bmem pname (acc.map Prod.fst) = false := by
        cases hv : bmem pname (acc.map Prod.fst)
        · rfl
        · exact absurd hv hb
      rw [show scanPairsLoop ((pname, source) :: rest) acc
          = scanPairsLoop rest (acc ++
            [(pname, match splitChar '/' source.data with
              | [a, b] => ProviderRef.mk (String.mk a) (String.mk b)
              | _ => ProviderRef.mk "hashicorp" pname)]) from by
        simp [scanPairsLoop, hb']] at hkp
      refine ih _ ?_ kp hkp
      intro kq hkq
      rcases List.mem_append.1 hkq with h1 | h1
      · exact hacc kq h1
      · simp only [List.mem_singleton] at h1
        subst h1
      
        cases hsp : splitChar '/' source.data with
        | nil => simp only [hsp]; decide
        | cons x xs =>
          cases xs with
          | nil => simp only [hsp]; decide
          | cons y ys =>
            cases ys with
            | nil =>
              simp only [hsp]
              exact splitChar_not_mem '/' source.data x (hsp ▸ List.mem_cons_self x [y])
            | cons z zs => simp only [hsp]; decide

theorem scanFilesLoop_slashfree (files : List String) :
    ∀ acc, (∀ kp ∈ acc, bmem '/' kp.2.ns.data = false) →
    ∀ kp ∈ scanFilesLoop files acc, bmem '/' kp.2.ns.data = false := by
  induction files with
  | nil => intro acc hacc kp hkp; exact hacc kp hkp
  | cons content rest ih =>
    intro acc hacc kp hkp
    simp only [scanFilesLoop] at hkp
    refine ih _ ?_ kp hkp
    intro kq hkq
    by_cases hc : subIn "required_providers".data content.data = true
    · rw [if_pos hc] at hkq
      cases hsr : searchRequired content.data with
      | some block =>
        simp only [hsr] at hkq
        exact scanPairsLoop_slashfree _ acc hacc kq hkq
      | none =>
        simp only [hsr] at hkq
        exact hacc kq hkq
    · rw [if_neg hc] at hkq
      exact hacc kq hkq

theorem scanner_slashfree (dir : Option (List String)) :
    ∀ p ∈ extract_providers_from_terraform_files dir, bmem '/' p.ns.data = false := by
  intro p hp
  cases dir with
  | none => simp [extract_providers_from_terraform_files] at hp
  | some files =>
    simp only [extract_providers_from_terraform_files] at hp
    rcases List.mem_map.1 hp with ⟨kp, hkp, he⟩
    rw [← he]
    exact scanFilesLoop_slashfree files [] (by intro kq h; simp at h) kp hkp

theorem finalLoop_dedupNew (xs : List ProviderRef) :
    ∀ (seen : List String) (acc : List (String × ProviderRef)),
    (∀ p ∈ xs, bmem '/' p.ns.data = false) →
    (∀ q : ProviderRef, bmem '/' q.ns.data = false → bmem (refKey q) seen = true →
      bmem (normKey q) (acc.map Prod.fst) = true) →
    finalLoop (dedupNewKeys seen xs) acc = finalLoop xs acc := by
  induction xs with
  | nil => intro seen acc _ _; rfl
  | cons p rest ih =>
    intro seen acc hsf hinv
    have hpsf : bmem '/' p.ns.data = false := hsf p (List.mem_cons_self p rest)
    by_cases hb : bmem (refKey p) seen = true
    · simp only [dedupNewKeys, hb, if_true]
      have hk : bmem (normKey p) (acc.map Prod.fst) = true := hinv p hpsf hb
      have hrhs : finalLoop (p :: rest) acc = finalLoop rest acc := by
        simp only [finalLoop, hk, if_true]
      rw [hrhs]
      exact ih seen acc (fun q hq => hsf q (List.mem_cons_of_mem _ hq)) hinv
    · have hb' : bmem (refKey p) seen = false := by
        cases hv : bmem (refKey p) seen
        · rfl
        · exact absurd hv hb
      simp only [dedupNewKeys, hb', Bool.false_eq_true, if_false]
      simp only [finalLoop]
      refine ih (seen ++ [refKey p]) _ (fun q hq => hsf q (List.mem_cons_of_mem _ hq)) ?_
      intro q hqsf hqseen
      rw [bmem_append] at hqseen
      rcases Bool.or_eq_true_iff.1 hqseen with h1 | h1
      · have hold := hinv q hqsf h1
        by_cases hk : bmem (normKey p) (acc.map Prod.fst) = true
        · rw [if_pos hk]
          exact hold
        · rw [if_neg hk]
          rw [List.map_append, bmem_append, hold]
          rfl
      · have hqp : refKey p = refKey q := by
          by_cases he : refKey p = refKey q
          · exact he
          · simp only [bmem, if_neg he] at h1
            exact absurd h1 (by simp)
        have hqeq : q = p :=
          refKey_inj q p hqsf (hsf p (List.mem_cons_self p rest)) hqp.symm
        subst hqeq
        by_cases hk : bmem (normKey q) (acc.map Prod.fst) = true
        · rw [if_pos hk]
          exact hk
        · rw [if_neg hk]
          rw [List.map_append, bmem_append]
          simp [bmem]

theorem validate_true_exists (plan : Json)
    (h : optFst (validate_plan_structure plan) = some true) :
    ∃ m, validate_plan_structure plan = some (true, m) := by
  cases hv : validate_plan_structure plan with
  | none => rw [hv] at h; simp [optFst] at h
  | some bm =>
    rcases bm with ⟨b, m⟩
    rw [hv] at h
    simp only [optFst, Option.some.injEq] at h
    subst h
    exact ⟨m, rfl⟩

/-- C5 (amended): when the plan is readable and structurally valid but both
plan-based sub-extractions yield no providers, extract_providers_from_plan
returns the file-based scanner result passed through the final normalization
pass: names re-normalized and duplicates by namespace/normalized-name removed,
keeping first occurrences (an empty scanner result thus yields an empty
extraction). -/
theorem c5_fallback_normalized (plan : Json) (dir : Option (List String))
    (m1 rp : List ProviderRef)
    (hvalid : optFst (validate_plan_structure plan) = some true)
    (hm1 : method1List plan = some m1)
    (hrp : extract_providers_from_resource_types plan = some rp)
    (hempty : mergeLoop rp m1 = []) :
    extract_providers_from_plan (some (some plan)) dir
      = finalNormalize (extract_providers_from_terraform_files dir) := by
  obtain ⟨msg, hval⟩ := validate_true_exists plan hvalid
  simp only [extract_providers_from_plan, extractBody, hval, hm1, hrp, Option.some_bind,
    hempty]
  simp only [List.isEmpty_nil, if_true]
  rw [mergeLoop_dedupNew]
  simp only [List.nil_append, List.map_nil]
  unfold finalNormalize
  rw [finalLoop_dedupNew (extract_providers_from_terraform_files dir) [] []
    (scanner_slashfree dir) (fun q _ hq => by simp [bmem] at hq)]
  rfl

/-- Counterexample to C5 as stated: on a valid plan with no providers and a
directory whose two files declare the same source under different block keys,
the scanner returns the reference twice but extract_providers_from_plan
returns it once. -/
theorem c5_counterexample :
    extract_providers_from_plan (some (some planFv)) (some [tfFileA, tfFileA2])
        = [ProviderRef.mk "h" "a"] ∧
      extract_providers_from_terraform_files (some [tfFileA, tfFileA2])
        = [ProviderRef.mk "h" "a", ProviderRef.mk "h" "a"] ∧
      ([ProviderRef.mk "h" "a"] : List ProviderRef)
        ≠ [ProviderRef.mk "h" "a", ProviderRef.mk "h" "a"] := by
  refine ⟨by decide, by decide, by decide⟩

/-- Witness for C5 (amended) at the same concrete plan and directory. -/
theorem c5_witness :
    extract_providers_from_plan (some (some planFv)) (some [tfFileA, tfFileA2])
      = finalNormalize (extract_providers_from_terraform_files (some [tfFileA, tfFileA2])) :=
  c5_fallback_normalized planFv (some [tfFileA, tfFileA2]) [] []
    (by decide) (by decide) (by decide) (by decide)

theorem all_hash_chars (l : List Char) :
    (l.map (fun c => Json.str (String.mk [c]))).all jHashable = true := by
  induction l with
  | nil => rfl
  | cons c rest ih =>
    simp only [List.map_cons, List.all_cons, Bool.and_eq_true]
    exact ⟨by trivial, ih⟩

theorem all_hash_keys (hs : List (String × Json)) :
    (hs.map (fun kv => Json.str kv.1)).all jHashable = true := by
  induction hs with
  | nil => rfl
  | cons kv rest ih =>
    simp only [List.map_cons, List.all_cons, Bool.and_eq_true]
    exact ⟨by trivial, ih⟩

theorem filterMap_str_chars (l : List Char) :
    (l.map (fun c => Json.str (String.mk [c]))).filterMap strOfJson
      = l.map (fun c => String.mk [c]) := by
  induction l with
  | nil => rfl
  | cons c rest ih => simp [List.filterMap_cons, strOfJson, ih]

theorem filterMap_str_keys (hs : List (String × Json)) :
    (hs.map (fun kv => Json.str kv.1)).filterMap strOfJson = hs.map Prod.fst := by
  induction hs with
  | nil => rfl
  | cons kv rest ih => simp [List.filterMap_cons, strOfJson, ih]

theorem countActions_eq (items : List Json) : ∀ counts,
    items.all jHashable = true →
    countActions items counts = some ((items.filterMap strOfJson).foldl bumpCount counts) := by
  induction items with
  | nil => intro counts _; rfl
  | cons a rest ih =>
    intro counts hall
    rw [List.all_cons, Bool.and_eq_true] at hall
    obtain ⟨ha, hrest⟩ := hall
    cases a with
    | str s => exact ih (bumpCount counts s) hrest
    | null => exact ih counts hrest
    | bool b => exact ih counts hrest
    | num n => exact ih counts hrest
    | arr xs => simp [jHashable] at ha
    | obj fs => simp [jHashable] at ha

theorem foldl_bumpCount (strs : List String) : ∀ counts : List (String × Nat),
    strs.foldl bumpCount counts = counts.map (fun kv => (kv.1, kv.2 + strs.count kv.1)) := by
  induction strs with
  | nil =>
    intro counts
    have h1 : counts.map (fun kv : String × Nat => (kv.1, kv.2 + ([] : List String).count kv.1))
        = counts.map id :=
      List.map_congr_left (fun kv _ => by simp)
    simp only [List.foldl_nil, h1, List.map_id]
  | cons s rest ih =>
    intro counts
    rw [List.foldl_cons, ih (bumpCount counts s)]
    simp only [bumpCount, List.map_map]
    refine List.map_congr_left ?_
    intro kv _
    by_cases hk : kv.1 = s
    · have hcount : (s :: rest).count kv.1 = rest.count kv.1 + 1 := by
        rw [List.count_cons]
        simp [hk]
      simp only [Function.comp_apply, if_pos hk, hcount, Prod.mk.injEq]
      exact ⟨trivial, by omega⟩
    · have hbe : (s == kv.1) = false := by
        rw [beq_eq_false_iff_ne]
        exact fun he => hk he.symm
      have hcount : (s :: rest).count kv.1 = rest.count kv.1 := by
        rw [List.count_cons, hbe]
        simp
      simp only [Function.comp_apply, if_neg hk, hcount]

theorem pySorted_strs (xs : List Json) (h : xs.all isStrJson = true) :
    ∃ st, pySortedJson xs = some st := by
  cases xs with
  | nil => exact ⟨[], rfl⟩
  | cons x xs2 =>
    cases xs2 with
    | nil => exact ⟨[x], rfl⟩
    | cons y ys =>
      refine ⟨(sortStrs ((x :: y :: ys).filterMap
        (fun j => match j with | Json.str s => some s | _ => none))).map Json.str, ?_⟩
      simp only [pySortedJson, h, if_true]

theorem analyzeLoop_wf (cs : List Json) : ∀ counts recs types,
    cs.all wfAnalyzeChange = true → types.all isStrJson = true →
    ∃ types2,
      analyzeLoop cs counts recs types
        = some (((cs.map actionStringsOf).flatten).foldl bumpCount counts,
            recs ++ cs.map recordOf, types2) ∧
      types2.all isStrJson = true := by
  induction cs with
  | nil =>
    intro counts recs types _ hty
    exact ⟨types, by simp [analyzeLoop], hty⟩
  | cons ch rest ih =>
    intro counts recs types hwf hty
    rw [List.all_cons, Bool.and_eq_true] at hwf
    obtain ⟨hch, hrest⟩ := hwf
    cases ch with
    | null => simp [wfAnalyzeChange] at hch
    | bool b => simp [wfAnalyzeChange] at hch
    | num n => simp [wfAnalyzeChange] at hch
    | str s => simp [wfAnalyzeChange] at hch
    | arr xs => simp [wfAnalyzeChange] at hch
    | obj fs =>
      simp only [wfAnalyzeChange, Bool.and_eq_true] at hch
      obtain ⟨hcg, hts⟩ := hch
      have hal : ∃ gs al items,
          (jLookup "change" fs).getD (Json.obj []) = Json.obj gs ∧
          (jLookup "actions" gs).getD (Json.arr []) = al ∧
          pyIter al = some items ∧ items.all jHashable = true ∧
          items.filterMap strOfJson = actionStringsOf (Json.obj fs) := by
        cases hcf : jLookup "change" fs with
        | none =>
          exact ⟨[], Json.arr [], [], by simp [hcf], rfl, rfl, rfl,
            by simp [actionStringsOf, recordOf, hcf, jLookup]⟩
        | some chv =>
          cases chv with
          | obj gs =>
            simp only [hcf] at hcg
            cases hag : jLookup "actions" gs with
            | none =>
              exact ⟨gs, Json.arr [], [], by simp [hcf], by simp [hag], rfl, rfl,
                by simp [actionStringsOf, recordOf, hcf, hag]⟩
            | some av =>
              cases av with
              | arr as =>
                simp only [hag] at hcg
                exact ⟨gs, Json.arr as, as, by simp [hcf], by simp [hag], rfl, hcg,
                  by simp [actionStringsOf, recordOf, hcf, hag]⟩
              | str s =>
                refine ⟨gs, Json.str s, s.data.map (fun c => Json.str (String.mk [c])),
                  by simp [hcf], by simp [hag], rfl, all_hash_chars s.data, ?_⟩
                rw [filterMap_str_chars]
                simp [actionStringsOf, recordOf, hcf, hag]
              | obj hs =>
                refine ⟨gs, Json.obj hs, hs.map (fun kv : String × Json => Json.str kv.1),
                  by simp [hcf], by simp [hag], rfl, all_hash_keys hs, ?_⟩
                rw [filterMap_str_keys]
                simp [actionStringsOf, recordOf, hcf, hag]
              | null => simp [hag] at hcg
              | bool b => simp [hag] at hcg
              | num n => simp [hag] at hcg
          | null => simp [hcf] at hcg
          | bool b => simp [hcf] at hcg
          | num n => simp [hcf] at hcg
          | str s => simp [hcf] at hcg
          | arr xs => simp [hcf] at hcg
      obtain ⟨gs, al, items, hgs, hal2, h2, h3, hstr⟩ := hal
      have hcnt := countActions_eq items counts h3
      rw [hstr] at hcnt
      have htv : ∃ ts, (jLookup "type" fs).getD (Json.str "unknown") = Json.str ts := by
        cases htf : jLookup "type" fs with
        | none => exact ⟨"unknown", by simp [htf]⟩
        | some tv =>
          cases tv with
          | str s => exact ⟨s, by simp [htf]⟩
          | null => simp [htf] at hts
          | bool b => simp [htf] at hts
          | num n => simp [htf] at hts
          | arr xs => simp [htf] at hts
          | obj hs => simp [htf] at hts
      obtain ⟨ts, htv⟩ := htv
      have hstep : analyzeLoop (Json.obj fs :: rest) counts recs types
          = analyzeLoop rest ((actionStringsOf (Json.obj fs)).foldl bumpCount counts)
            (recs ++ [ResourceRecord.mk (Json.str ts)
              ((jLookup "name" fs).getD (Json.str "unknown")) al])
            (if types.any (fun u => Json.beq u (Json.str ts)) then types
             else types ++ [Json.str ts]) := by
        simp only [analyzeLoop, pyDictGet, hgs, hal2, h2, hcnt, htv, jHashable, if_true]
      have hty2 : (if types.any (fun u => Json.beq u (Json.str ts)) then types
          else types ++ [Json.str ts]).all isStrJson = true := by
        by_cases hmem : types.any (fun u => Json.beq u (Json.str ts)) = true
        · rw [if_pos hmem]
          exact hty
        · rw [if_neg hmem]
          rw [List.all_append, hty]
          rfl
      obtain ⟨t3, hloop, ht3⟩ := ih ((actionStringsOf (Json.obj fs)).foldl bumpCount counts)
        (recs ++ [ResourceRecord.mk (Json.str ts)
          ((jLookup "name" fs).getD (Json.str "unknown")) al]) _ hrest hty2
      refine ⟨t3, ?_, ht3⟩
      rw [hstep, hloop]
      have hrec : recordOf (Json.obj fs)
          = ResourceRecord.mk (Json.str ts)
              ((jLookup "name" fs).getD (Json.str "unknown")) al := by
        simp only [recordOf, hgs, hal2, htv]
      simp only [List.map_cons, List.flatten_cons, List.foldl_append, hrec,
        List.append_assoc, List.singleton_append]

/-- C10 (amended): analyze_plan_resources is total; when the file parses as
JSON and every resource_changes entry is an object whose change field is an
object (or absent) whose actions field is absent, a string, a dictionary, or a
list of hashable values, and whose type is a string (or absent, the data model
of resource changes), then total_resources equals the number of entries, the
resources list holds one type/name/actions record per change in input order
with the actions value kept verbatim, and the returned action counters count
exactly the occurrences of create, update, delete and replace among the
iterated action strings, nothing else; a missing or unreadable file, a parse
failure, and any exception from malformed entries all yield the zeroed
summary. -/
theorem c10_analyze_spec (plan : Json) (hwf : wfAnalyze plan = true) :
    (analyze_plan_resources (some (some plan))).total_resources
        = (planChangesList plan).length ∧
    (analyze_plan_resources (some (some plan))).resources
        = (planChangesList plan).map recordOf ∧
    (analyze_plan_resources (some (some plan))).actions
        = ["create", "update", "delete", "replace"].map
            (fun a => (a, (allActionStrings plan).count a)) ∧
    analyze_plan_resources none = failSummary ∧
    analyze_plan_resources (some none) = failSummary ∧
    (∀ q : Json, analyzeBody q = none →
      analyze_plan_resources (some (some q)) = failSummary) := by
  simp only [wfAnalyze] at hwf
  cases hrc : pyDictGet plan "resource_changes" (Json.arr []) with
  | none => rw [hrc] at hwf; simp at hwf
  | some rcs =>
    rw [hrc] at hwf
    cases rcs with
    | null => simp at hwf
    | bool b => simp at hwf
    | num n => simp at hwf
    | str s => simp at hwf
    | obj gs => simp at hwf
    | arr cs =>
      obtain ⟨types2, hloop, hty2⟩ := analyzeLoop_wf cs initActions [] [] hwf rfl
      obtain ⟨st, hst⟩ := pySorted_strs types2 hty2
      have hbody : analyzeBody plan
          = some { actions := ((cs.map actionStringsOf).flatten).foldl bumpCount initActions,
                   resources := cs.map recordOf,
                   total_resources := (cs.map recordOf).length, resource_types := st } := by
        simp only [analyzeBody, hrc, Option.some_bind,
          show pyIter (Json.arr cs) = some cs from rfl, hloop, hst, List.nil_append]
      have hchl : planChangesList plan = cs := by simp [planChangesList, hrc]
      refine ⟨?_, ?_, ?_, rfl, rfl, fun q hq => by simp [analyze_plan_resources, hq]⟩
      · simp [analyze_plan_resources, hbody, hchl]
      · simp [analyze_plan_resources, hbody, hchl]
      · rw [show (analyze_plan_resources (some (some plan))).actions
            = ((cs.map actionStringsOf).flatten).foldl bumpCount initActions from by
          simp [analyze_plan_resources, hbody]]
        rw [foldl_bumpCount]
        simp [initActions, allActionStrings, hchl]

/-- Counterexample to C10 as stated: a plan whose resource_changes holds the
bare number 5 parses as JSON with one entry, yet the summarizer returns the
zeroed summary with total_resources 0, not 1. -/
theorem c10_counterexample :
    (analyze_plan_resources (some (some planBadChange))).total_resources = 0 ∧
    (planChangesList planBadChange).length = 1 ∧ (0 : Nat) ≠ 1 :=
  ⟨rfl, rfl, by decide⟩

/-- Witness for C10 (amended) at a one-change plan. -/
theorem c10_witness :
    wfAnalyze planOneChange = true ∧
    (analyze_plan_resources (some (some planOneChange))).total_resources
      = (planChangesList planOneChange).length ∧
    (analyze_plan_resources (some (some planOneChange))).resources
      = (planChangesList planOneChange).map recordOf ∧
    (analyze_plan_resources (some (some planOneChange))).actions
      = ["create", "update", "delete", "replace"].map
          (fun a => (a, (allActionStrings planOneChange).count a)) :=
  ⟨by decide, (c10_analyze_spec planOneChange (by decide)).1,
   (c10_analyze_spec planOneChange (by decide)).2.1,
   (c10_analyze_spec planOneChange (by decide)).2.2.1⟩

/-- C1 (amended): the validator process exits zero exactly when the plan file
exists and MCP initialization succeeds (a capabilities key in the initialize
result); a missing plan file and a failed MCP initialization both exit
non-zero, while the other degraded conditions (empty providers, malformed or
invalid plan contents, per-provider metadata failures) leave the exit code at
zero. -/
theorem c1_exit_iff (env : MainEnv) :
    mainExitCode env = some 0 ↔
      (env.planFile.isSome = true ∧ initMcp env.mcpInitResult = some true) := by
  cases env with
  | mk pf dir mcp =>
    cases pf with
    | none => simp [mainExitCode]
    | some x =>
      simp only [mainExitCode]
      cases hm : initMcp mcp with
      | none => simp
      | some ok =>
        cases ok with
        | false => simp
        | true => simp

/-- Counterexample to C1 as stated: when the plan file exists but the MCP
initialize result is the empty object (the transport wrapper returns it on any
subprocess failure), main exits 1, not 0. -/
theorem c1_counterexample :
    (MainEnv.mk (some (some planFv)) none (Json.obj [])).planFile.isSome = true ∧
    mainExitCode (MainEnv.mk (some (some planFv)) none (Json.obj [])) = some 1 ∧
    (some 1 : Option Nat) ≠ some 0 :=
  ⟨rfl, rfl, by decide⟩

/-- C9 (amended): provider extraction is a pure function of the plan document
and the ordered directory listing: an identical plan input and an identical
directory enumeration (same files, same contents, same order) always yield the
identical ordered provider sequence. -/
theorem c9_deterministic (pf1 pf2 : Option (Option Json)) (d1 d2 : Option (List String))
    (hp : pf1 = pf2) (hd : d1 = d2) :
    extract_providers_from_plan pf1 d1 = extract_providers_from_plan pf2 d2 := by
  rw [hp, hd]

/-- Witness for C9 (amended) at a concrete missing plan and directory. -/
theorem c9_witness :
    extract_providers_from_plan none (some [tfFileA])
      = extract_providers_from_plan none (some [tfFileA]) :=
  c9_deterministic none none (some [tfFileA]) (some [tfFileA]) rfl rfl

/-- Counterexample to C9 as stated: the same two .tf files enumerated in the
two possible orders are identical directory contents, yet the extracted
sequences differ in order. -/
theorem c9_counterexample :
    ([tfFileA, tfFileB] : List String).Perm [tfFileB, tfFileA] ∧
    extract_providers_from_plan none (some [tfFileA, tfFileB])
      ≠ extract_providers_from_plan none (some [tfFileB, tfFileA]) := by
  constructor
  · exact List.Perm.swap tfFileB tfFileA []
  · decide
